import Mathlib

/-!
Verification of the dollie diff/merge/conflict engine.

This file shallowly embeds `packages/@dollie/core/src/diff.ts` (the line
differ, the merger and the merge-block parser/serialiser) and the relevant
parts of the core generator (conflict collection, the conflict-resolver
step, the delete/merge/emit pipeline and the template-props question
routing), and proves or refutes the specified properties.

JS values are modelled as follows: machine numbers that can be negative
(line numbers, slice indices) are `Int`; JS `null`/`undefined` arguments
are `Option`; JS objects used as string-keyed tables are association
lists in insertion order, with the JS key-iteration order (canonical
array indices ascending first, then the remaining keys in insertion
order) modelled explicitly where the code depends on it.
-/

namespace Dollie

/-! ### Char-level string helpers

`String.split('\n')` and the line tokenisation are modelled structurally
on `String.data` so that every definition evaluates by kernel reduction.
-/

/-- JS `s.split('\n')` on the character list: splits at every newline,
never returns an empty list. -/
def splitNl : List Char → List (List Char)
  | [] => [[]]
  | c :: cs =>
    let r := splitNl cs
    if c = '\n' then [] :: r
    else
      match r with
      | [] => [[c]]
      | h :: t => (c :: h) :: t

/-- Inverse of `splitNl`: interleave the parts with newlines. -/
def unsplitNl : List (List Char) → List Char
  | [] => []
  | [p] => p
  | p :: ps => p ++ '\n' :: unsplitNl ps

/-- JS `value.endsWith('\n')`. -/
def endsWithNl (s : String) : Bool :=
  decide (s.data.getLast? = some '\n')

/-- JS `value.slice(0, -1)`: drop the final character. -/
def dropLastChar (s : String) : String :=
  String.mk s.data.dropLast

/-- JS `s.split('\n')` at the `String` level. -/
def splitNlStr (s : String) : List String :=
  (splitNl s.data).map String.mk

/-! ### Data model (`interfaces.ts`) -/

/-- The conflict group tag of a change: `'former'` or `'current'`. -/
inductive ConflictGroup
  | former
  | current
deriving DecidableEq, Inhabited

/-- A change as returned by the external `diffLines` library: flags plus a
possibly multi-line text. The unused `count` field is not modelled. -/
structure RawChange where
  added : Bool := false
  removed : Bool := false
  value : String := ""
deriving DecidableEq, Inhabited

/-- `DiffChange`: one line of content, `added`/`removed` flags, conflict
marks and the baseline-anchored line number.  Fields that are absent
(`undefined`, hence falsy) on a JS object are modelled by their defaults. -/
structure DiffChange where
  added : Bool := false
  removed : Bool := false
  conflicted : Bool := false
  conflictGroup : ConflictGroup := .current
  value : String := ""
  lineNumber : Int := 0
deriving DecidableEq, Inhabited

/-- Merge block status: `'OK'` or `'CONFLICT'`. -/
inductive BlockStatus
  | OK
  | CONFLICT
deriving DecidableEq, Inhabited

/-- A `MergeBlock`: `values.current`, `values.former` and the `ignored`
flag (absent = false in JS). -/
structure MergeBlock where
  status : BlockStatus := .OK
  current : List String := []
  former : List String := []
  ignored : Bool := false
deriving DecidableEq, Inhabited

/-! ### The external line differ, modelled from the spec

`diff.ts` imports `diffLines` from the external `diff` npm package, which
is not part of this repository.

Modelled from the spec: section 4.1 requires "a standard line-level diff
(Myers or equivalent) producing runs of `\x7badded|removed|common, text\x7d`".
We model it as a longest-common-subsequence line diff over the jsdiff line
tokenisation (each token is one line retaining its trailing newline; the
last token lacks the newline when the input does, and the empty input has
no tokens).  The model emits one `RawChange` per line instead of merged
runs; `splitChanges` below splits runs into lines again, so the two
conventions agree after splitting.  Recursion is by explicit fuel so that
every definition reduces in the kernel. -/
def tokenizeLines (s : String) : List String :=
  let parts := splitNl s.data
  let initToks := parts.dropLast.map (fun p => String.mk (p ++ ['\n']))
  match parts.getLast? with
  | some [] => initToks
  | some lastPart => initToks ++ [String.mk lastPart]
  | none => initToks

/-- Longest-common-subsequence length of two token lists (fuelled). -/
def lcsLenGo : Nat → List String → List String → Nat
  | 0, _, _ => 0
  | _ + 1, [], _ => 0
  | _ + 1, _, [] => 0
  | fuel + 1, a :: as, b :: bs =>
    if a = b then lcsLenGo fuel as bs + 1
    else max (lcsLenGo fuel as (b :: bs)) (lcsLenGo fuel (a :: as) bs)

/-- Longest-common-subsequence length of two token lists. -/
def lcsLen (xs ys : List String) : Nat :=
  lcsLenGo (xs.length + ys.length) xs ys

/-- LCS-based line diff over token lists (fuelled), emitting removed
tokens before added tokens inside a replaced region. -/
def lineDiffGo : Nat → List String → List String → List RawChange
  | 0, _, _ => []
  | _ + 1, [], [] => []
  | fuel + 1, [], b :: bs => { added := true, value := b } :: lineDiffGo fuel [] bs
  | fuel + 1, a :: as, [] => { removed := true, value := a } :: lineDiffGo fuel as []
  | fuel + 1, a :: as, b :: bs =>
    if a = b then { value := a } :: lineDiffGo fuel as bs
    else if lcsLen as (b :: bs) ≥ lcsLen (a :: as) bs then
      { removed := true, value := a } :: lineDiffGo fuel as (b :: bs)
    else
      { added := true, value := b } :: lineDiffGo fuel (a :: as) bs

/-- Modelled from the spec: the external `diffLines(oldStr, newStr)`. -/
def diffLines (oldStr newStr : String) : List RawChange :=
  let oldToks := tokenizeLines oldStr
  let newToks := tokenizeLines newStr
  lineDiffGo (oldToks.length + newToks.length) oldToks newToks

/-! ### `diff.ts`: `diff` -/

/-- `diff.ts` lines 23-26: strip one trailing newline, split the run on
newlines and give every resulting line a terminating newline. -/
def splitValue (v : String) : List String :=
  let base := if endsWithNl v then dropLastChar v else v
  (splitNlStr base).map (fun line => line ++ "\n")

/-- `diff.ts` lines 22-28: split every change of a `diffLines` result
into one-line changes carrying the same flags. -/
def splitChanges (changes : List RawChange) : List RawChange :=
  changes.foldl
    (fun result c =>
      result ++ (splitValue c.value).map (fun line => { c with value := line }))
    []

/-- Structural form of `splitChanges` used in proofs: the same expansion
written as a recursion instead of a fold. -/
def expandChanges : List RawChange → List RawChange
  | [] => []
  | c :: rest =>
    (splitValue c.value).map (fun line => { c with value := line }) ++ expandChanges rest

/-- A line value with its terminating newline restored if missing; what
`splitValue` does to a single-line value. -/
def normalizeNl (tok : String) : String :=
  if endsWithNl tok then tok else tok ++ "\n"

/-- `diff.ts` lines 30-38: walk the split changes assigning line numbers:
a non-added change receives the counter (which then increments), an added
change receives counter minus one. -/
def assignNumbersFrom : Int → List RawChange → List DiffChange
  | _, [] => []
  | n, c :: rest =>
    if c.added then
      { added := c.added, removed := c.removed, value := c.value, lineNumber := n - 1 }
        :: assignNumbersFrom n rest
    else
      { added := c.added, removed := c.removed, value := c.value, lineNumber := n }
        :: assignNumbersFrom (n + 1) rest

/-- `diff.ts` lines 17-41, `diff(originalContent, currentContent?)`.
JS `currentContent || originalContent` treats both `undefined` and the
empty string as missing. -/
def diff (originalContent : String) (currentContent : Option String) : List DiffChange :=
  let current :=
    match currentContent with
    | none => originalContent
    | some c => if c = "" then originalContent else c
  assignNumbersFrom 0 (splitChanges (diffLines originalContent current))

/-! ### `diff.ts`: `merge` -/

/-- An entry of the `PatchTable`: the added changes collected at one
baseline anchor and the number of overlays that inserted there. -/
structure PatchItem where
  changes : List DiffChange := []
  modifyLength : Nat := 0
deriving DecidableEq, Inhabited

/-- The JS `PatchTable` object: an association list keyed by anchor line
number, in insertion order. -/
abbrev PatchTable := List (Int × PatchItem)

/-- `patchTable[k].changes.push(c)`, creating the entry if absent
(`diff.ts` lines 64-71). -/
def ptAddChange : PatchTable → Int → DiffChange → PatchTable
  | [], k, c => [(k, { changes := [c] })]
  | (k', item) :: rest, k, c =>
    if k' = k then (k', { item with changes := item.changes ++ [c] }) :: rest
    else (k', item) :: ptAddChange rest k c

/-- `patchTable[k].modifyLength += 1` (`diff.ts` line 88).  The entry is
always present when the code runs this; a missing key is a no-op here
where JS would fault. -/
def ptBump : PatchTable → Int → PatchTable
  | [], _ => []
  | (k', item) :: rest, k =>
    if k' = k then (k', { item with modifyLength := item.modifyLength + 1 }) :: rest
    else (k', item) :: ptBump rest k

/-- Key lookup in the patch table. -/
def ptFind : PatchTable → Int → Option PatchItem
  | [], _ => none
  | (k', item) :: rest, k => if k' = k then some item else ptFind rest k

/-- `_.uniq`: deduplicate preserving first occurrences. -/
def jsUniq {α : Type} [DecidableEq α] (l : List α) : List α :=
  l.foldl (fun acc x => if acc.contains x then acc else acc ++ [x]) []

/-- `_.set(originalDiff, [i, 'removed'], true)` (`diff.ts` line 76).
In range, it marks the element removed.  For `i` at or beyond the end,
lodash pads the array with holes and stores a fresh `\x7bremoved: true\x7d`
object; the holes and the fresh object are modelled by default-valued
changes.  A negative `i` becomes a non-index property of the array
object, invisible to later slicing: a no-op on the element list. -/
def setRemovedAt (l : List DiffChange) (i : Int) : List DiffChange :=
  if i < 0 then l
  else
    let n := i.toNat
    if h : n < l.length then
      l.set n { l.get ⟨n, h⟩ with removed := true }
    else
      l ++ List.replicate (n - l.length) ({} : DiffChange) ++ [{ removed := true }]

/-- `diff.ts` lines 62-79: the first loop over one overlay, accumulating
added changes in the patch table and marking removed baseline lines. -/
def addOverlayFirstLoop (st : List DiffChange × PatchTable) (currentDiff : List DiffChange) :
    List DiffChange × PatchTable :=
  currentDiff.foldl
    (fun st change =>
      if change.added then (st.1, ptAddChange st.2 change.lineNumber change)
      else if change.removed then (setRemovedAt st.1 change.lineNumber, st.2)
      else st)
    st

/-- `diff.ts` lines 62-90: process one overlay: the first loop, then one
`modifyLength` bump per distinct anchor the overlay inserted at. -/
def addOverlay (st : List DiffChange × PatchTable) (currentDiff : List DiffChange) :
    List DiffChange × PatchTable :=
  let st := addOverlayFirstLoop st currentDiff
  let addedChangeLineNumbers := (currentDiff.filter (·.added)).map (·.lineNumber)
  (st.1, (jsUniq addedChangeLineNumbers).foldl ptBump st.2)

/-- The conflict tag `diff.ts` lines 97-101 put on a change: set
`conflicted` and `conflictGroup: 'current'`, keeping everything else. -/
def markCurrent (c : DiffChange) : DiffChange :=
  { c with conflicted := true, conflictGroup := .current }

/-- `diff.ts` lines 92-103: mark every patch entry hit by more than one
overlay as conflicted, all of its changes tagged with group `current`. -/
def markConflicts (pt : PatchTable) : PatchTable :=
  pt.map fun e =>
    if e.2.modifyLength > 1 then
      (e.1, { e.2 with changes := e.2.changes.map markCurrent })
    else e

/-- Insertion into a sorted `Int` list. -/
def insertSorted (x : Int) : List Int → List Int
  | [] => [x]
  | y :: ys => if x ≤ y then x :: y :: ys else y :: insertSorted x ys

/-- Insertion sort, ascending. -/
def sortInts : List Int → List Int
  | [] => []
  | x :: xs => insertSorted x (sortInts xs)

/-- Whether a number prints as a canonical JS array index key. -/
def isArrayIndexKey (k : Int) : Bool :=
  decide (0 ≤ k) && decide (k < 4294967295)

/-- `Object.keys(patchTable)` in JS iteration order: canonical array
indices ascending first, then the remaining (e.g. negative) keys in
insertion order. -/
def iterKeys (pt : PatchTable) : List Int :=
  let ks := pt.map (·.1)
  sortInts (ks.filter isArrayIndexKey) ++ ks.filter (fun k => !isArrayIndexKey k)

/-- JS `Array.prototype.slice(start, end?)` with index normalisation:
negative indices count from the end, and both bounds clamp. -/
def jsSlice (l : List DiffChange) (startIdx : Int) (endIdx : Option Int) : List DiffChange :=
  let n : Int := l.length
  let norm : Int → Int := fun i => if i < 0 then max (n + i) 0 else min i n
  let s := norm startIdx
  let e := match endIdx with | none => n | some i => norm i
  (l.take e.toNat).drop s.toNat

/-- `diff.ts` lines 122-129: slice the baseline into the alternating
blocks between consecutive anchors (each entry peeks at its successor;
the last anchor takes the open-ended slice). -/
def buildBlocks (originalDiff : List DiffChange) : List Int → List (List DiffChange)
  | [] => []
  | [ln] => [jsSlice originalDiff (ln + 1) none]
  | ln :: next :: rest =>
    jsSlice originalDiff (ln + 1) (some (next + 1)) :: buildBlocks originalDiff (next :: rest)

/-- `diff.ts` lines 132-142: interleave the baseline blocks with the
patch insertions; when the patch queue is exhausted the block is emitted
alone. -/
def assemble : List (List DiffChange) → List PatchItem → List DiffChange
  | [], _ => []
  | blk :: rest, [] => blk ++ assemble rest []
  | blk :: rest, p :: ps => blk ++ p.changes ++ assemble rest ps

/-- `diff.ts` lines 49-143, `merge(originalChanges, diffList)`.  A JS
`null`/`undefined` argument is `none`; note that an *empty array* is
truthy in JS, so an empty baseline is not caught by the null check. -/
def merge (originalChanges : Option (List DiffChange))
    (diffList : Option (List (List DiffChange))) : List DiffChange :=
  match originalChanges with
  | none => []
  | some originalChanges =>
    match diffList with
    | none => originalChanges
    | some diffList =>
      if diffList.length = 0 then originalChanges
      else
        let st := diffList.foldl addOverlay (originalChanges, ([] : PatchTable))
        let patchTable := markConflicts st.2
        let keys := iterKeys patchTable
        let patches := keys.map fun k => (ptFind patchTable k).getD ({} : PatchItem)
        let lineNumbers := (-1 : Int) :: keys
        assemble (buildBlocks st.1 lineNumbers) patches

/-! ### `diff.ts`: merge blocks -/

/-- Push a line value onto the named group of a block. -/
def appendToGroup (b : MergeBlock) (g : ConflictGroup) (v : String) : MergeBlock :=
  match g with
  | .current => { b with current := b.current ++ [v] }
  | .former => { b with former := b.former ++ [v] }

/-- `_.last(mergeBlocks).status === 'CONFLICT'` guarded by emptiness. -/
def lastIsConflict (blocks : List MergeBlock) : Bool :=
  match blocks.getLast? with
  | some b => decide (b.status = BlockStatus.CONFLICT)
  | none => false

/-- Replace the last block, if any. -/
def updLast (blocks : List MergeBlock) (f : MergeBlock → MergeBlock) : List MergeBlock :=
  match blocks.getLast? with
  | none => blocks
  | some last => blocks.dropLast ++ [f last]

/-- One iteration of the `diff.ts` lines 162-203 loop body. -/
def parseStep (mergeBlocks : List MergeBlock) (line : DiffChange) : List MergeBlock :=
  if line.removed then mergeBlocks
  else if line.conflicted then
    let blocks :=
      if !lastIsConflict mergeBlocks then
        mergeBlocks ++ [{ status := .CONFLICT }]
      else mergeBlocks
    updLast blocks fun last => appendToGroup last line.conflictGroup line.value
  else
    let blocks :=
      if mergeBlocks.isEmpty || lastIsConflict mergeBlocks then
        mergeBlocks ++ [{ status := .OK }]
      else mergeBlocks
    updLast blocks fun last => { last with current := last.current ++ [line.value] }

/-- `diff.ts` lines 162-203, `parseDiffToMergeBlocks`. -/
def parseDiffToMergeBlocks (changes : List DiffChange) : List MergeBlock :=
  changes.foldl parseStep []

/-- The text one block contributes in `parseMergeBlocksToText`. -/
def renderBlock (b : MergeBlock) : String :=
  if b.status = BlockStatus.OK then String.join b.current
  else
    "<<<<<<< former\n" ++ String.join b.former ++ "=======\n"
      ++ String.join b.current ++ ">>>>>>> current\n"

/-- `diff.ts` lines 145-160, `parseMergeBlocksToText`. -/
def parseMergeBlocksToText (blocks : List MergeBlock) : String :=
  blocks.foldl (fun result b => result ++ renderBlock b) ""

/-- `diff.ts` lines 205-207, `parseFileTextToMergeBlocks`. -/
def parseFileTextToMergeBlocks (content : String) : List MergeBlock :=
  parseDiffToMergeBlocks (diff content none)

/-! ### Generator models (`generator.ts`, core generator)

JS objects keyed by pathname are modelled as association lists in
insertion order (pathnames are assumed not to look like array indices,
so JS preserves insertion order for them). -/

/-- A `MergeTable`: pathname to merge-block sequence. -/
abbrev MergeTable := List (String × List MergeBlock)

/-- Lookup by key, first match. -/
def listLookup {α : Type} : List (String × α) → String → Option α
  | [], _ => none
  | (k, v) :: rest, key => if k = key then some v else listLookup rest key

/-- JS `table[key] = value`: overwrite in place, else append. -/
def jsAssocSet {α : Type} : List (String × α) → String → α → List (String × α)
  | [], key, v => [(key, v)]
  | (k, w) :: rest, key, v =>
    if k = key then (k, v) :: rest
    else (k, w) :: jsAssocSet rest key v

/-- Core generator `getIgnoredConflictedFilePathnameList` (the variant
shipped with the diff engine): push the pathname once per `CONFLICT`
block — ignored or not — then `_.uniq`. -/
def getIgnoredConflictedFilePathnameList (mergeTable : MergeTable) : List String :=
  jsUniq
    (mergeTable.foldl
      (fun result e =>
        e.2.foldl
          (fun r mb => if mb.status = BlockStatus.CONFLICT then r ++ [e.1] else r)
          result)
      [])

/-- The verdict a `conflictsSolver` callback can return:
JS `null`, the string `'ignored'`, or a replacement block. -/
inductive SolverVerdict
  | null
  | ignored
  | solved (block : MergeBlock)
deriving DecidableEq, Inhabited

/-- JS `mergeTable[pathname] = g(mergeTable[pathname])`: update the
entry at the key in place (keys of a JS object are unique; a missing key
is a no-op where JS would fault). -/
def tableSetBlocks : MergeTable → String → (List MergeBlock → List MergeBlock) → MergeTable
  | [], _, _ => []
  | (k, v) :: rest, p, g =>
    if k = p then (k, g v) :: rest
    else (k, v) :: tableSetBlocks rest p g

/-- One iteration of the core generator `resolveConflicts` loop applied
to the merge table for the work item `(pathname, index)`: `null` requeues
(table unchanged), `'ignored'` spreads the old block with `ignored:
true`, and a block overwrites with status forced to `OK`. -/
def applySolverVerdict (mergeTable : MergeTable) (pathname : String) (index : Nat)
    (verdict : SolverVerdict) : MergeTable :=
  match verdict with
  | .null => mergeTable
  | .ignored =>
    tableSetBlocks mergeTable pathname fun blocks =>
      blocks.set index { blocks.getD index default with ignored := true }
  | .solved nb =>
    tableSetBlocks mergeTable pathname fun blocks =>
      blocks.set index { nb with status := .OK }

/-- A `CacheTable`: pathname to the list of change lists (baseline first). -/
abbrev CacheTable := List (String × List (List DiffChange))

/-- Emitted file contents: template text or binary bytes. -/
inductive FileContent
  | text (s : String)
  | binary (bytes : List Nat)
deriving DecidableEq, Inhabited

/-- Core generator `deleteFiles`: keep exactly the cache entries whose
pathname does not match the `delete` policy. -/
def deleteFiles (matchDelete : String → Bool) (cacheTable : CacheTable) : CacheTable :=
  cacheTable.foldl
    (fun result e => if !matchDelete e.1 then result ++ [e] else result)
    []

/-- Core generator `mergeTemplateFiles`: files matching the `merge`
policy are merged (baseline plus overlays) and parsed to blocks; other
files take the blocks of their last change list. -/
def mergeTemplateFiles (matchMerge : String → Bool) (cacheTable : CacheTable) : MergeTable :=
  cacheTable.foldl
    (fun mt e =>
      if e.2.length = 0 then mt
      else if matchMerge e.1 then
        if e.2.length = 1 then
          jsAssocSet mt e.1 (parseDiffToMergeBlocks (e.2.headD []))
        else
          jsAssocSet mt e.1
            (parseDiffToMergeBlocks (merge (some (e.2.headD [])) (some (e.2.drop 1))))
      else jsAssocSet mt e.1 (parseDiffToMergeBlocks (e.2.getLastD [])))
    []

/-- lodash `_.merge(dst, src)` restricted to flat tables of primitive
values: every `src` entry overwrites or is appended to `dst`. -/
def jsMergeTables (dst src : List (String × FileContent)) : List (String × FileContent) :=
  src.foldl (fun d e => jsAssocSet d e.1 e.2) dst

/-- Core generator `getResult`: serialise every merge-table entry, then
`_.merge` the binary table underneath (text entries win on clashes). -/
def getResultFiles (mergeTable : MergeTable) (binaryTable : List (String × List Nat)) :
    List (String × FileContent) :=
  let files :=
    mergeTable.foldl
      (fun fs e => jsAssocSet fs e.1 (FileContent.text (parseMergeBlocksToText e.2)))
      []
  jsMergeTables (binaryTable.map fun e => (e.1, FileContent.binary e.2)) files

/-! ### Template-props question routing (core generator) -/

/-- The slice of `TemplateConfig` that question routing reads: the main
`questions` list and `extendTemplates.<id>.questions`, with questions
modelled as opaque strings. -/
structure TemplateConfigQ where
  questions : List String := []
  extendTemplates : List (String × List String) := []
deriving DecidableEq, Inhabited

/-- Core generator `getTemplateProps(extendTemplateLabel = null)`,
reduced to the argument the user callback receives: the guard selects
`extendTemplates.<label>.questions` for a truthy label (the label is
passed with its `extend:` prefix intact) and `questions` otherwise, but
the call itself always passes `this.templateConfig.questions`.  Returns
`none` when the callback is not invoked. -/
def getTemplatePropsQuestionsArg (cfg : TemplateConfigQ)
    (extendTemplateLabel : Option String) : Option (List String) :=
  let questions : Option (List String) :=
    match extendTemplateLabel with
    | some label =>
      if label = "" then some cfg.questions
      else listLookup cfg.extendTemplates label
    | none => some cfg.questions
  match questions with
  | some qs => if 0 < qs.length then some cfg.questions else none
  | none => none

/-! ### Generic helper lemmas -/

theorem mem_foldl_jsUniq {α : Type} [DecidableEq α] (l : List α) (x : α) :
    ∀ acc, x ∈ l.foldl (fun acc y => if acc.contains y then acc else acc ++ [y]) acc ↔
      x ∈ acc ∨ x ∈ l := by
  induction l with
  | nil => intro acc; simp
  | cons y ys ih =>
    intro acc
    rw [List.foldl_cons, ih]
    by_cases h : acc.contains y
    · have hy : y ∈ acc := List.mem_of_elem_eq_true (by simpa [List.contains] using h)
      simp only [if_pos h, List.mem_cons]
      constructor
      · rintro (h1 | h2)
        · exact Or.inl h1
        · exact Or.inr (Or.inr h2)
      · rintro (h1 | rfl | h2)
        · exact Or.inl h1
        · exact Or.inl hy
        · exact Or.inr h2
    · simp only [if_neg h, List.mem_append, List.mem_singleton, List.mem_cons]
      tauto

theorem mem_jsUniq {α : Type} [DecidableEq α] (l : List α) (x : α) :
    x ∈ jsUniq l ↔ x ∈ l := by
  simpa [jsUniq] using mem_foldl_jsUniq l x []

theorem listLookup_mem {α : Type} (l : List (String × α)) (k : String) (v : α)
    (h : listLookup l k = some v) : (k, v) ∈ l := by
  induction l with
  | nil => simp [listLookup] at h
  | cons e rest ih =>
    obtain ⟨k', v'⟩ := e
    by_cases hk : k' = k
    · simp only [listLookup, if_pos hk] at h
      cases h
      subst hk
      exact List.mem_cons_self _ _
    · simp only [listLookup, if_neg hk] at h
      exact List.mem_cons_of_mem _ (ih h)

theorem listLookup_tableSetBlocks (mt : MergeTable) (p : String)
    (g : List MergeBlock → List MergeBlock) :
    listLookup (tableSetBlocks mt p g) p = (listLookup mt p).map g := by
  induction mt with
  | nil => simp [listLookup, tableSetBlocks]
  | cons e rest ih =>
    obtain ⟨k', v'⟩ := e
    by_cases hk : k' = p
    · simp [tableSetBlocks, listLookup, hk]
    · simp [tableSetBlocks, listLookup, hk, ih]

theorem tableSetBlocks_mem_of_lookup (mt : MergeTable) (p : String) (v : List MergeBlock)
    (g : List MergeBlock → List MergeBlock) (h : listLookup mt p = some v) :
    (p, g v) ∈ tableSetBlocks mt p g := by
  induction mt with
  | nil => simp [listLookup] at h
  | cons e rest ih =>
    obtain ⟨k', v'⟩ := e
    by_cases hk : k' = p
    · simp only [listLookup, if_pos hk] at h
      cases h
      subst hk
      simp [tableSetBlocks]
    · simp only [listLookup, if_neg hk] at h
      simp only [tableSetBlocks, if_neg hk]
      exact List.mem_cons_of_mem _ (ih h)

theorem jsAssocSet_mem_key {α : Type} (l : List (String × α)) (k : String) (v : α)
    (e : String × α) (h : e ∈ jsAssocSet l k v) : e ∈ l ∨ e.1 = k := by
  induction l with
  | nil =>
    simp only [jsAssocSet, List.mem_singleton] at h
    subst h
    exact Or.inr rfl
  | cons d rest ih =>
    by_cases hk : d.1 = k
    · simp only [jsAssocSet, if_pos hk, List.mem_cons] at h
      rcases h with rfl | h
      · exact Or.inr hk
      · exact Or.inl (List.mem_cons_of_mem _ h)
    · simp only [jsAssocSet, if_neg hk, List.mem_cons] at h
      rcases h with rfl | h
      · exact Or.inl (List.mem_cons_self _ _)
      · rcases ih h with h1 | h1
        · exact Or.inl (List.mem_cons_of_mem _ h1)
        · exact Or.inr h1

theorem get?_set_self {α : Type} (l : List α) (i : Nat) (nb b : α)
    (h : l.get? i = some b) : (l.set i nb).get? i = some nb := by
  induction l generalizing i with
  | nil => simp [List.get?] at h
  | cons a rest ih =>
    cases i with
    | zero => simp [List.set]
    | succ n => simpa [List.set] using ih n (by simpa using h)

theorem mem_of_get? {α : Type} (l : List α) (i : Nat) (b : α)
    (h : l.get? i = some b) : b ∈ l := by
  induction l generalizing i with
  | nil => simp [List.get?] at h
  | cons a rest ih =>
    cases i with
    | zero => simp_all
    | succ n => exact List.mem_cons_of_mem _ (ih n (by simpa using h))

theorem getD_of_get? {α : Type} [Inhabited α] (l : List α) (i : Nat) (b : α)
    (h : l.get? i = some b) : l.getD i default = b := by
  rw [List.get?_eq_getElem?] at h
  simp [List.getD, h]

/-! ### Slice lemmas -/

theorem jsSlice_zero_some (l : List DiffChange) (e : Int) (he : 0 ≤ e) :
    jsSlice l 0 (some e) = l.take e.toNat := by
  have h0 : ¬ ((0 : Int) < 0) := by omega
  simp only [jsSlice, if_neg h0, if_neg (by omega : ¬ e < 0)]
  have hmin : (min e (l.length : Int)).toNat = min e.toNat l.length := by omega
  have hz : (min (0 : Int) (l.length : Int)).toNat = 0 := by omega
  rw [hmin, hz, List.drop_zero]
  rcases Nat.le_total e.toNat l.length with h | h
  · rw [Nat.min_eq_left h]
  · rw [Nat.min_eq_right h, List.take_length, List.take_of_length_le h]

theorem jsSlice_some_none (l : List DiffChange) (s : Int) (hs : 0 ≤ s) :
    jsSlice l s none = l.drop s.toNat := by
  simp only [jsSlice, if_neg (by omega : ¬ s < 0)]
  have hmin : (min s (l.length : Int)).toNat = min s.toNat l.length := by omega
  have hn : ((l.length : Int)).toNat = l.length := by omega
  rw [hmin, hn, List.take_length]
  rcases Nat.le_total s.toNat l.length with h | h
  · rw [Nat.min_eq_left h]
  · rw [Nat.min_eq_right h, List.drop_length, List.drop_eq_nil_of_le h]

/-! ### Claim C5 -/

/-- C5 counterexample: an empty (non-null) baseline is truthy in JS, so
with a non-empty overlays list `merge` does not return the empty
change-list — the overlay's added change is emitted. -/
theorem c5_counterexample :
    merge (some []) (some [[{ added := true, value := "x\n", lineNumber := 0 }]]) ≠ [] := by
  decide

/-- C5 (amended): merge returns the baseline unchanged whenever the
overlays list is empty or missing, and returns an empty change-list
whenever the baseline is null; an empty (non-null) baseline with a
non-empty overlays list may still produce a non-empty result, because
only a null baseline is caught by the falsiness check. -/
theorem c5_merge_identities :
    ∀ (b : List DiffChange) (dl : Option (List (List DiffChange))),
      merge (some b) (some []) = b ∧ merge (some b) none = b ∧ merge none dl = [] := by
  intro b dl
  exact ⟨rfl, rfl, rfl⟩

/-! ### Claim C6 -/

/-- C6 counterexample: an overlay added change whose `lineNumber` (5)
lies outside the index range of the baseline (length 1) is not silently
dropped — removing it changes the merge output. -/
theorem c6_counterexample :
    merge (some [{ value := "A\n", lineNumber := 0 }])
        (some [[{ added := true, value := "x\n", lineNumber := 5 }]]) ≠
      merge (some [{ value := "A\n", lineNumber := 0 }]) (some [([] : List DiffChange)]) := by
  decide

/-- C6 (amended): merge is a total function (the embedding never
faults), but an overlay added change whose `lineNumber` is at or beyond
the end of the baseline is not dropped: JS slice clamping appends its
lines after the final baseline slice. -/
theorem c6_out_of_range_added_appended :
    ∀ (b : List DiffChange) (c : DiffChange),
      c.added = true → (b.length : Int) ≤ c.lineNumber → c.lineNumber < 4294967295 →
      merge (some b) (some [[c]]) = b ++ [c] := by
  intro b c hadd hge hlt
  have hnn : (0 : Int) ≤ c.lineNumber := le_trans (Int.ofNat_nonneg _) hge
  have h1 : addOverlayFirstLoop (b, []) [c] =
      (b, [(c.lineNumber, { changes := [c] })]) := by
    simp [addOverlayFirstLoop, hadd, ptAddChange]
  have h2 : addOverlay (b, []) [c] =
      (b, [(c.lineNumber, { changes := [c], modifyLength := 1 })]) := by
    simp [addOverlay, h1, hadd, jsUniq, ptBump]
  have h3 : markConflicts [(c.lineNumber, { changes := [c], modifyLength := 1 })] =
      [(c.lineNumber, { changes := [c], modifyLength := 1 })] := by
    simp [markConflicts]
  have hkey : isArrayIndexKey c.lineNumber = true := by
    simp only [isArrayIndexKey, Bool.and_eq_true, decide_eq_true_eq]
    omega
  have h4 : iterKeys [(c.lineNumber, { changes := [c], modifyLength := 1 })] =
      [c.lineNumber] := by
    simp [iterKeys, hkey, sortInts, insertSorted]
  have h5 : jsSlice b 0 (some (c.lineNumber + 1)) = b := by
    rw [jsSlice_zero_some _ _ (by omega)]
    exact List.take_of_length_le (by omega)
  have h6 : jsSlice b (c.lineNumber + 1) none = [] := by
    rw [jsSlice_some_none _ _ (by omega)]
    exact List.drop_eq_nil_of_le (by omega)
  simp only [merge, List.foldl_cons, List.foldl_nil, h2, h3, h4]
  simp [buildBlocks, assemble, ptFind, h5, h6]

/-- C6 witness: the amended behaviour at a concrete input. -/
theorem c6_witness :
    ({ added := true, value := "x\n", lineNumber := 5 } : DiffChange).added = true ∧
      merge (some [{ value := "A\n", lineNumber := 0 }])
          (some [[{ added := true, value := "x\n", lineNumber := 5 }]]) =
        [{ value := "A\n", lineNumber := 0 }, { added := true, value := "x\n", lineNumber := 5 }] :=
  ⟨by decide,
    c6_out_of_range_added_appended [{ value := "A\n", lineNumber := 0 }]
      { added := true, value := "x\n", lineNumber := 5 } (by decide) (by decide) (by decide)⟩

/-! ### Claim C8 -/

/-- C8: the core generator computes a `questions` guard from
`extendTemplates.<label>.questions` for an extend label (with the
`extend:` prefix left on the key, so the lookup misses a template keyed
by its bare id and the callback is never invoked), and even when the
guard passes, the callback always receives the main
`templateConfig.questions` — never the extend template's questions. -/
theorem c8_questions_routing_divergence :
    (getTemplatePropsQuestionsArg
        { questions := ["qMain"], extendTemplates := [("x", ["qExt"])] }
        (some "extend:x") = none
      ∧ listLookup [("x", ["qExt"])] "x" = some ["qExt"])
    ∧ getTemplatePropsQuestionsArg
        { questions := ["qMain"], extendTemplates := [("extend:x", ["qExt"])] }
        (some "extend:x") = some ["qMain"]
    ∧ getTemplatePropsQuestionsArg
        { questions := ["qMain"], extendTemplates := [("x", ["qExt"])] }
        none = some ["qMain"] := by
  decide

/-! ### Claim C2 -/

theorem mem_conflict_inner_foldl (blocks : List MergeBlock) (path : String) (p : String) :
    ∀ acc, p ∈ blocks.foldl
        (fun r mb => if mb.status = BlockStatus.CONFLICT then r ++ [path] else r) acc ↔
      p ∈ acc ∨ (p = path ∧ ∃ mb ∈ blocks, mb.status = BlockStatus.CONFLICT) := by
  induction blocks with
  | nil => intro acc; simp
  | cons mb rest ih =>
    intro acc
    rw [List.foldl_cons]
    by_cases hs : mb.status = BlockStatus.CONFLICT
    · rw [if_pos hs, ih]
      constructor
      · rintro (h | ⟨rfl, hex⟩)
        · rcases List.mem_append.mp h with h | h
          · exact Or.inl h
          · rcases List.mem_singleton.mp h with rfl
            exact Or.inr ⟨rfl, mb, List.mem_cons_self _ _, hs⟩
        · obtain ⟨mb', hmb', hc⟩ := hex
          exact Or.inr ⟨rfl, mb', List.mem_cons_of_mem _ hmb', hc⟩
      · rintro (h | ⟨rfl, mb', hmb', hc⟩)
        · exact Or.inl (List.mem_append.mpr (Or.inl h))
        · exact Or.inl (List.mem_append.mpr (Or.inr (List.mem_singleton.mpr rfl)))
    · rw [if_neg hs, ih]
      constructor
      · rintro (h | ⟨rfl, mb', hmb', hc⟩)
        · exact Or.inl h
        · exact Or.inr ⟨rfl, mb', List.mem_cons_of_mem _ hmb', hc⟩
      · rintro (h | ⟨rfl, mb', hmb', hc⟩)
        · exact Or.inl h
        · rcases List.mem_cons.mp hmb' with rfl | hmb'
          · exact absurd hc hs
          · exact Or.inr ⟨rfl, mb', hmb', hc⟩

theorem mem_conflict_outer_foldl (mt : MergeTable) (p : String) :
    ∀ acc, p ∈ mt.foldl
        (fun result e =>
          e.2.foldl
            (fun r mb => if mb.status = BlockStatus.CONFLICT then r ++ [e.1] else r)
            result) acc ↔
      p ∈ acc ∨ ∃ e ∈ mt, e.1 = p ∧ ∃ mb ∈ e.2, mb.status = BlockStatus.CONFLICT := by
  induction mt with
  | nil => intro acc; simp
  | cons e rest ih =>
    intro acc
    rw [List.foldl_cons, ih, mem_conflict_inner_foldl]
    simp only [List.mem_cons]
    constructor
    · rintro ((h | ⟨rfl, hb⟩) | ⟨e', he', hp, hb⟩)
      · exact Or.inl h
      · exact Or.inr ⟨e, Or.inl rfl, rfl, hb⟩
      · exact Or.inr ⟨e', Or.inr he', hp, hb⟩
    · rintro (h | ⟨e', he' | he', hp, hb⟩)
      · exact Or.inl (Or.inl h)
      · subst he'
        exact Or.inl (Or.inr ⟨hp.symm, hb⟩)
      · exact Or.inr ⟨e', he', hp, hb⟩

/-- Membership description of the shipped conflicts list: a pathname is
reported iff some entry with that pathname has a `CONFLICT` block,
whether or not the block is ignored. -/
theorem mem_getIgnoredConflictedFilePathnameList (mt : MergeTable) (p : String) :
    p ∈ getIgnoredConflictedFilePathnameList mt ↔
      ∃ e ∈ mt, e.1 = p ∧ ∃ mb ∈ e.2, mb.status = BlockStatus.CONFLICT := by
  rw [getIgnoredConflictedFilePathnameList, mem_jsUniq, mem_conflict_outer_foldl]
  simp

/-- C2 counterexample: a file whose only conflict block is `ignored` is
still reported in `conflicts`, so membership is not equivalent to having
a non-ignored `CONFLICT` block. -/
theorem c2_counterexample :
    ¬ ("a.txt" ∈ getIgnoredConflictedFilePathnameList
          [("a.txt", [{ status := .CONFLICT, ignored := true }])] ↔
        ∃ mb ∈ [({ status := .CONFLICT, ignored := true } : MergeBlock)],
          mb.status = BlockStatus.CONFLICT ∧ mb.ignored = false) := by
  decide

/-- C2 (amended): a pathname appears in the `conflicts` list of the
result iff its final MergeTable entry contains at least one `CONFLICT`
block, ignored or not (the shipped collector tests only the status and
deduplicates pathnames). -/
theorem c2_conflicts_iff_conflict_block :
    ∀ (mt : MergeTable) (p : String),
      p ∈ getIgnoredConflictedFilePathnameList mt ↔
        ∃ e ∈ mt, e.1 = p ∧ ∃ mb ∈ e.2, mb.status = BlockStatus.CONFLICT :=
  mem_getIgnoredConflictedFilePathnameList

/-! ### Claim C4 -/

theorem foldl_render_set (blocks : List MergeBlock) :
    ∀ (i : Nat) (b nb : MergeBlock), blocks.get? i = some b →
      renderBlock nb = renderBlock b →
      ∀ init : String,
        (blocks.set i nb).foldl (fun r x => r ++ renderBlock x) init =
          blocks.foldl (fun r x => r ++ renderBlock x) init := by
  induction blocks with
  | nil => intro i b nb h; simp [List.get?] at h
  | cons hd rest ih =>
    intro i b nb h hr init
    cases i with
    | zero =>
      simp only [List.get?] at h
      cases h
      simp [List.set, hr]
    | succ n =>
      simp only [List.get?] at h
      simp only [List.set, List.foldl_cons]
      exact ih n b nb h hr _

/-- C4 counterexample: after the solver answers `'ignored'`, the file's
emitted text still renders the block as a full conflict fence — not via
its `current` group alone. -/
theorem c4_counterexample :
    parseMergeBlocksToText
        ((listLookup
            (applySolverVerdict
              [("a.txt", [{ status := .CONFLICT, current := ["B\n"], former := ["A\n"] }])]
              "a.txt" 0 .ignored)
            "a.txt").getD []) =
      "<<<<<<< former\nA\n=======\nB\n>>>>>>> current\n"
    ∧ parseMergeBlocksToText
        ((listLookup
            (applySolverVerdict
              [("a.txt", [{ status := .CONFLICT, current := ["B\n"], former := ["A\n"] }])]
              "a.txt" 0 .ignored)
            "a.txt").getD []) ≠ String.join ["B\n"] := by
  constructor <;> decide

/-- C4 (amended): when the solver returns `'ignored'` for a conflict
work item, the resolver step sets `ignored := true` on that block while
preserving its status and both value groups, the pathname still appears
in the final conflicts report, and the file's emitted text is unchanged:
the block still renders as a conflict fence carrying both groups (the
serialiser ignores the `ignored` flag), not as its `current` group. -/
theorem c4_ignored_verdict :
    ∀ (mt : MergeTable) (p : String) (i : Nat) (blocks : List MergeBlock) (b : MergeBlock),
      listLookup mt p = some blocks → blocks.get? i = some b →
      b.status = BlockStatus.CONFLICT →
      listLookup (applySolverVerdict mt p i .ignored) p =
          some (blocks.set i { b with ignored := true })
        ∧ (blocks.set i { b with ignored := true }).get? i = some { b with ignored := true }
        ∧ p ∈ getIgnoredConflictedFilePathnameList (applySolverVerdict mt p i .ignored)
        ∧ parseMergeBlocksToText (blocks.set i { b with ignored := true }) =
            parseMergeBlocksToText blocks
        ∧ renderBlock { b with ignored := true } =
            "<<<<<<< former\n" ++ String.join b.former ++ "=======\n"
              ++ String.join b.current ++ ">>>>>>> current\n" := by
  intro mt p i blocks b hlook hget hst
  have hD : blocks.getD i default = b := getD_of_get? blocks i b hget
  have hfun : blocks.set i { blocks.getD i default with ignored := true } =
      blocks.set i { b with ignored := true } := by rw [hD]
  have happ : applySolverVerdict mt p i .ignored =
      tableSetBlocks mt p fun bl => bl.set i { bl.getD i default with ignored := true } := rfl
  have hrb : renderBlock { b with ignored := true } = renderBlock b := by
    simp [renderBlock]
  refine ⟨?_, ?_, ?_, ?_, ?_⟩
  · rw [happ, listLookup_tableSetBlocks, hlook]
    show some (blocks.set i { blocks.getD i default with ignored := true }) = _
    rw [hfun]
  · exact get?_set_self blocks i _ b hget
  · rw [happ, mem_getIgnoredConflictedFilePathnameList]
    refine ⟨(p, blocks.set i { b with ignored := true }), ?_, rfl, ?_⟩
    · have h2 := tableSetBlocks_mem_of_lookup mt p blocks
        (fun bl => bl.set i { bl.getD i default with ignored := true }) hlook
      have h3 : (p, blocks.set i { b with ignored := true }) ∈
          tableSetBlocks mt p
            (fun bl => bl.set i { bl.getD i default with ignored := true }) := by
        rw [← hfun]
        exact h2
      exact h3
    · exact ⟨{ b with ignored := true },
        mem_of_get? _ i _ (get?_set_self blocks i _ b hget), hst⟩
  · exact foldl_render_set blocks i b { b with ignored := true } hget hrb ""
  · rw [hrb, renderBlock, if_neg (by simp [hst])]

/-- C4 witness: the amended behaviour at a concrete conflicted table. -/
theorem c4_witness :
    listLookup
        ([("a.txt", [{ status := .CONFLICT, current := ["B\n"], former := ["A\n"] }])] : MergeTable)
        "a.txt" =
      some ([{ status := .CONFLICT, current := ["B\n"], former := ["A\n"] }] : List MergeBlock)
    ∧ ("a.txt" ∈ getIgnoredConflictedFilePathnameList
          (applySolverVerdict
            [("a.txt", [{ status := .CONFLICT, current := ["B\n"], former := ["A\n"] }])]
            "a.txt" 0 .ignored)
        ∧ renderBlock
            { status := .CONFLICT, current := ["B\n"], former := ["A\n"], ignored := true } =
            "<<<<<<< former\n" ++ String.join ["A\n"] ++ "=======\n"
              ++ String.join ["B\n"] ++ ">>>>>>> current\n") :=
  ⟨by decide,
    (c4_ignored_verdict
        [("a.txt", [{ status := .CONFLICT, current := ["B\n"], former := ["A\n"] }])]
        "a.txt" 0
        ([{ status := .CONFLICT, current := ["B\n"], former := ["A\n"] }] : List MergeBlock)
        ({ status := .CONFLICT, current := ["B\n"], former := ["A\n"] } : MergeBlock)
        (by decide) (by decide) (by decide)).2.2.1,
    (c4_ignored_verdict
        [("a.txt", [{ status := .CONFLICT, current := ["B\n"], former := ["A\n"] }])]
        "a.txt" 0
        ([{ status := .CONFLICT, current := ["B\n"], former := ["A\n"] }] : List MergeBlock)
        ({ status := .CONFLICT, current := ["B\n"], former := ["A\n"] } : MergeBlock)
        (by decide) (by decide) (by decide)).2.2.2.2⟩

/-! ### Claim C7 -/

theorem deleteFiles_no_match (matchDelete : String → Bool) (ct : CacheTable) :
    ∀ acc : CacheTable, (∀ x ∈ acc, matchDelete x.1 = false) →
      ∀ x ∈ ct.foldl (fun result e => if !matchDelete e.1 then result ++ [e] else result) acc,
        matchDelete x.1 = false := by
  induction ct with
  | nil => intro acc hacc x hx; exact hacc x hx
  | cons e rest ih =>
    intro acc hacc x hx
    rw [List.foldl_cons] at hx
    by_cases hm : matchDelete e.1
    · simp only [hm, Bool.not_true, Bool.false_eq_true, if_false] at hx
      exact ih acc hacc x hx
    · have hm' : matchDelete e.1 = false := by simpa using hm
      simp only [hm', Bool.not_false, if_true] at hx
      refine ih _ ?_ x hx
      intro y hy
      rcases List.mem_append.mp hy with hy | hy
      · exact hacc y hy
      · rcases List.mem_singleton.mp hy with rfl
        exact hm'

theorem mem_deleteFiles (matchDelete : String → Bool) (ct : CacheTable)
    (x : String × List (List DiffChange)) (hx : x ∈ deleteFiles matchDelete ct) :
    matchDelete x.1 = false :=
  deleteFiles_no_match matchDelete ct [] (by simp) x hx

theorem mem_mergeTemplateFiles_aux (matchMerge : String → Bool) (ct : CacheTable) :
    ∀ acc : MergeTable, ∀ x ∈ ct.foldl
        (fun mt e =>
          if e.2.length = 0 then mt
          else if matchMerge e.1 then
            if e.2.length = 1 then
              jsAssocSet mt e.1 (parseDiffToMergeBlocks (e.2.headD []))
            else
              jsAssocSet mt e.1
                (parseDiffToMergeBlocks (merge (some (e.2.headD [])) (some (e.2.drop 1))))
          else jsAssocSet mt e.1 (parseDiffToMergeBlocks (e.2.getLastD [])))
        acc,
      x ∈ acc ∨ ∃ d ∈ ct, d.1 = x.1 := by
  induction ct with
  | nil => intro acc x hx; exact Or.inl hx
  | cons e rest ih =>
    intro acc x hx
    rw [List.foldl_cons] at hx
    have step : ∀ y : String × List MergeBlock,
        (y ∈ acc ∨ y.1 = e.1) → y ∈ acc ∨ ∃ d ∈ e :: rest, d.1 = y.1 := by
      rintro y (hy | hy)
      · exact Or.inl hy
      · exact Or.inr ⟨e, List.mem_cons_self _ _, hy.symm⟩
    rcases ih _ x hx with hx1 | hx1
    · split at hx1
      · exact step x (Or.inl hx1)
      · split at hx1
        · split at hx1
          · exact step x (jsAssocSet_mem_key _ _ _ _ hx1)
          · exact step x (jsAssocSet_mem_key _ _ _ _ hx1)
        · exact step x (jsAssocSet_mem_key _ _ _ _ hx1)
    · obtain ⟨d, hd, hdx⟩ := hx1
      exact Or.inr ⟨d, List.mem_cons_of_mem _ hd, hdx⟩

theorem mem_mergeTemplateFiles (matchMerge : String → Bool) (ct : CacheTable)
    (x : String × List MergeBlock) (hx : x ∈ mergeTemplateFiles matchMerge ct) :
    ∃ d ∈ ct, d.1 = x.1 := by
  rcases mem_mergeTemplateFiles_aux matchMerge ct [] x hx with h | h
  · simp at h
  · exact h

theorem mem_files_foldl (mt : MergeTable) :
    ∀ acc : List (String × FileContent), ∀ x ∈ mt.foldl
        (fun fs e => jsAssocSet fs e.1 (FileContent.text (parseMergeBlocksToText e.2))) acc,
      x ∈ acc ∨ ∃ m ∈ mt, m.1 = x.1 := by
  induction mt with
  | nil => intro acc x hx; exact Or.inl hx
  | cons e rest ih =>
    intro acc x hx
    rw [List.foldl_cons] at hx
    rcases ih _ x hx with hx1 | hx1
    · rcases jsAssocSet_mem_key _ _ _ _ hx1 with h | h
      · exact Or.inl h
      · exact Or.inr ⟨e, List.mem_cons_self _ _, h.symm⟩
    · obtain ⟨m, hm, hmx⟩ := hx1
      exact Or.inr ⟨m, List.mem_cons_of_mem _ hm, hmx⟩

theorem mem_jsMergeTables (dst src : List (String × FileContent))
    (x : String × FileContent) (hx : x ∈ jsMergeTables dst src) :
    (∃ d ∈ dst, d.1 = x.1) ∨ ∃ s ∈ src, s.1 = x.1 := by
  induction src generalizing dst with
  | nil => exact Or.inl ⟨x, hx, rfl⟩
  | cons s rest ih =>
    rw [jsMergeTables, List.foldl_cons] at hx
    rcases ih (jsAssocSet dst s.1 s.2) hx with h | h
    · obtain ⟨d, hd, hdx⟩ := h
      rcases jsAssocSet_mem_key _ _ _ _ hd with h1 | h1
      · exact Or.inl ⟨d, h1, hdx⟩
      · exact Or.inr ⟨s, List.mem_cons_self _ _, h1 ▸ hdx⟩
    · obtain ⟨s', hs', hsx⟩ := h
      exact Or.inr ⟨s', List.mem_cons_of_mem _ hs', hsx⟩

/-- C7 counterexample: a binary pathname matching the `delete` policy is
not pruned — `deleteFiles` only filters the cache table, and the binary
table is merged into the emitted files untouched. -/
theorem c7_counterexample :
    (fun p => decide (p = "x.bin")) "x.bin" = true
    ∧ ("x.bin", FileContent.binary [0]) ∈
        getResultFiles
          (mergeTemplateFiles (fun _ => true)
            (deleteFiles (fun p => decide (p = "x.bin")) []))
          [("x.bin", [0])] := by
  constructor <;> decide

/-- C7 (amended): a pathname matching the `delete` policy whose content
is text (it is absent from the binary table) does not appear in the
emitted files: `deleteFiles` removes it from the cache table and the
downstream merge/emit steps introduce no new pathnames.  Binary entries
are not subject to the `delete` policy. -/
theorem c7_deleted_text_pathname_absent :
    ∀ (matchDelete matchMerge : String → Bool) (ct : CacheTable)
      (bt : List (String × List Nat)) (p : String),
      matchDelete p = true → (∀ e ∈ bt, e.1 ≠ p) →
      ∀ v, (p, v) ∉
        getResultFiles (mergeTemplateFiles matchMerge (deleteFiles matchDelete ct)) bt := by
  intro matchDelete matchMerge ct bt p hdel hbt v hmem
  rw [getResultFiles] at hmem
  rcases mem_jsMergeTables _ _ _ hmem with h | h
  · obtain ⟨d, hd, hdx⟩ := h
    obtain ⟨e, he, rfl⟩ := List.mem_map.mp hd
    exact hbt e he hdx
  · obtain ⟨m, hm, hmx⟩ := h
    rcases mem_files_foldl _ [] m hm with h1 | h1
    · simp at h1
    · obtain ⟨m', hm', hmx'⟩ := h1
      obtain ⟨d, hd, hdx⟩ := mem_mergeTemplateFiles matchMerge _ m' hm'
      have := mem_deleteFiles matchDelete ct d hd
      rw [hdx, hmx', hmx] at this
      rw [hdel] at this
      exact Bool.noConfusion this

/-- C7 witness: the amended behaviour at a concrete pipeline state. -/
theorem c7_witness :
    (fun s => decide (s = "del.txt")) "del.txt" = true
    ∧ (∀ e ∈ ([] : List (String × List Nat)), e.1 ≠ "del.txt")
    ∧ ("del.txt", FileContent.text "A\n") ∉
        getResultFiles
          (mergeTemplateFiles (fun _ => true)
            (deleteFiles (fun s => decide (s = "del.txt"))
              [("del.txt", [[{ value := "A\n", lineNumber := 0 }]])]))
          [] :=
  ⟨by decide, by decide,
    c7_deleted_text_pathname_absent (fun s => decide (s = "del.txt")) (fun _ => true)
      [("del.txt", [[{ value := "A\n", lineNumber := 0 }]])] [] "del.txt"
      (by decide) (by decide) (FileContent.text "A\n")⟩

/-! ### Diff-chain lemmas (claims C10, C9, C1) -/

theorem splitChanges_foldl_eq (l : List RawChange) :
    ∀ acc : List RawChange,
      l.foldl
        (fun result c =>
          result ++ (splitValue c.value).map (fun line => { c with value := line }))
        acc = acc ++ expandChanges l := by
  induction l with
  | nil => intro acc; simp [expandChanges]
  | cons c rest ih =>
    intro acc
    rw [List.foldl_cons, ih, expandChanges, List.append_assoc]

theorem splitChanges_eq_expand (l : List RawChange) :
    splitChanges l = expandChanges l := by
  simpa [splitChanges] using splitChanges_foldl_eq l []

theorem mem_expandChanges (l : List RawChange) (c : RawChange)
    (hc : c ∈ expandChanges l) :
    ∃ c0 ∈ l, c.added = c0.added ∧ c.removed = c0.removed := by
  induction l with
  | nil => simp [expandChanges] at hc
  | cons d rest ih =>
    rw [expandChanges] at hc
    rcases List.mem_append.mp hc with h | h
    · obtain ⟨line, -, rfl⟩ := List.mem_map.mp h
      exact ⟨d, List.mem_cons_self _ _, rfl, rfl⟩
    · obtain ⟨c0, hc0, h1, h2⟩ := ih h
      exact ⟨c0, List.mem_cons_of_mem _ hc0, h1, h2⟩

theorem mem_assignNumbersFrom (raw : List RawChange) :
    ∀ (n : Int) (c : DiffChange), c ∈ assignNumbersFrom n raw →
      ∃ c0 ∈ raw, c.added = c0.added ∧ c.removed = c0.removed ∧ c.conflicted = false := by
  induction raw with
  | nil => intro n c hc; simp [assignNumbersFrom] at hc
  | cons d rest ih =>
    intro n c hc
    by_cases hadd : d.added
    · rw [assignNumbersFrom, if_pos hadd] at hc
      rcases List.mem_cons.mp hc with rfl | hc
      · exact ⟨d, List.mem_cons_self _ _, rfl, rfl, rfl⟩
      · obtain ⟨c0, hc0, h⟩ := ih n c hc
        exact ⟨c0, List.mem_cons_of_mem _ hc0, h⟩
    · rw [assignNumbersFrom, if_neg hadd] at hc
      rcases List.mem_cons.mp hc with rfl | hc
      · exact ⟨d, List.mem_cons_self _ _, rfl, rfl, rfl⟩
      · obtain ⟨c0, hc0, h⟩ := ih (n + 1) c hc
        exact ⟨c0, List.mem_cons_of_mem _ hc0, h⟩

theorem lineDiffGo_self (xs : List String) :
    ∀ fuel, xs.length ≤ fuel →
      lineDiffGo fuel xs xs = xs.map (fun v => { value := v }) := by
  induction xs with
  | nil => intro fuel h; cases fuel <;> simp [lineDiffGo]
  | cons a as ih =>
    intro fuel h
    cases fuel with
    | zero => simp at h
    | succ m =>
      rw [lineDiffGo, if_pos rfl, List.map_cons, ih m (by simpa using h)]

theorem diffLines_self (s : String) :
    diffLines s s = (tokenizeLines s).map (fun v => { value := v }) := by
  rw [diffLines]
  exact lineDiffGo_self _ _ (by omega)

/-! ### Claim C10 -/

/-- C10: passing the empty string as current content is the same as
omitting it (JS `||` treats both as falsy), and the result is the
all-commons self-diff: no change of the output is added or removed. -/
theorem c10_diff_empty_current :
    ∀ a : String,
      diff a (some "") = diff a none
      ∧ (diff a (some "")).all (fun c => !c.added && !c.removed) = true := by
  intro a
  refine ⟨rfl, ?_⟩
  rw [List.all_eq_true]
  intro c hc
  have hc2 : c ∈ assignNumbersFrom 0 (splitChanges (diffLines a a)) := hc
  obtain ⟨c0, hc0, hca, hcr, -⟩ := mem_assignNumbersFrom _ 0 c hc2
  rw [splitChanges_eq_expand] at hc0
  obtain ⟨c1, hc1, h0a, h0r⟩ := mem_expandChanges _ c0 hc0
  rw [diffLines_self] at hc1
  obtain ⟨v, -, rfl⟩ := List.mem_map.mp hc1
  simp only [hca, hcr, h0a, h0r]
  rfl

/-! ### Claim C9 -/

theorem assign_numbers_chain (raw : List RawChange) :
    ∀ n : Int,
      List.Chain' (· ≤ ·) ((assignNumbersFrom n raw).map DiffChange.lineNumber)
      ∧ List.Chain' (· < ·)
          (((assignNumbersFrom n raw).filter (fun c => !c.added)).map DiffChange.lineNumber)
      ∧ (∀ x ∈ (assignNumbersFrom n raw).map DiffChange.lineNumber, n - 1 ≤ x)
      ∧ (∀ x ∈ ((assignNumbersFrom n raw).filter
            (fun c => !c.added)).map DiffChange.lineNumber, n ≤ x) := by
  induction raw with
  | nil => intro n; simp [assignNumbersFrom]
  | cons c rest ih =>
    intro n
    by_cases hadd : c.added
    · obtain ⟨ih1, ih2, ih3, ih4⟩ := ih n
      rw [assignNumbersFrom, if_pos hadd]
      refine ⟨?_, ?_, ?_, ?_⟩
      · rw [List.map_cons, List.chain'_cons']
        exact ⟨fun y hy => by
          have := ih3 y (List.mem_of_mem_head? hy)
          simp only [DiffChange.lineNumber] at *
          omega, ih1⟩
      · simpa [List.filter_cons, hadd] using ih2
      · intro x hx
        rcases List.mem_cons.mp hx with rfl | hx
        · simp only [DiffChange.lineNumber]
          omega
        · have := ih3 x hx
          omega
      · intro x hx
        refine ih4 x ?_
        simpa [List.filter_cons, hadd] using hx
    · obtain ⟨ih1, ih2, ih3, ih4⟩ := ih (n + 1)
      rw [assignNumbersFrom, if_neg hadd]
      have hb : (c.added = false) := by simpa using hadd
      refine ⟨?_, ?_, ?_, ?_⟩
      · rw [List.map_cons, List.chain'_cons']
        exact ⟨fun y hy => by
          have := ih3 y (List.mem_of_mem_head? hy)
          simp only [DiffChange.lineNumber] at *
          omega, ih1⟩
      · rw [List.filter_cons]
        simp only [hb, Bool.not_false, if_true, List.map_cons, List.chain'_cons']
        exact ⟨fun y hy => by
          have := ih4 y (List.mem_of_mem_head? hy)
          simp only [DiffChange.lineNumber] at *
          omega, ih2⟩
      · intro x hx
        rcases List.mem_cons.mp hx with rfl | hx
        · omega
        · have := ih3 x hx
          omega
      · intro x hx
        rw [List.filter_cons] at hx
        simp only [hb, Bool.not_false, if_true, List.map_cons] at hx
        rcases List.mem_cons.mp hx with rfl | hx
        · omega
        · have := ih4 x hx
          omega

/-- C9: in every change list produced by `diff`, the `lineNumber` values
are non-decreasing, and the non-added changes carry strictly increasing
line numbers — so only added changes can repeat a line number (each
added change takes the counter minus one, i.e. the last-seen baseline
line). -/
theorem c9_line_numbers_monotone :
    ∀ (a : String) (b : Option String),
      List.Chain' (· ≤ ·) ((diff a b).map DiffChange.lineNumber)
      ∧ List.Chain' (· < ·)
          (((diff a b).filter (fun c => !c.added)).map DiffChange.lineNumber) := by
  intro a b
  obtain ⟨h1, h2, -, -⟩ :=
    assign_numbers_chain
      (splitChanges (diffLines a
        (match b with
         | none => a
         | some c => if c = "" then a else c))) 0
  exact ⟨h1, h2⟩

/-! ### Newline-splitting lemmas (claim C1) -/

theorem splitNl_ne_nil (cs : List Char) : splitNl cs ≠ [] := by
  cases cs with
  | nil => simp [splitNl]
  | cons c cs =>
    rw [splitNl]
    by_cases h : c = '\n'
    · simp [h]
    · simp only [if_neg h]
      rcases splitNl cs with _ | ⟨hd, tl⟩ <;> simp

theorem unsplitNl_splitNl (cs : List Char) : unsplitNl (splitNl cs) = cs := by
  induction cs with
  | nil => rfl
  | cons c cs ih =>
    rw [splitNl]
    by_cases h : c = '\n'
    · subst h
      simp only [if_pos rfl]
      obtain ⟨h2, t2, hr⟩ : ∃ h2 t2, splitNl cs = h2 :: t2 := by
        rcases hq : splitNl cs with _ | ⟨a, b⟩
        · exact absurd hq (splitNl_ne_nil cs)
        · exact ⟨a, b, rfl⟩
      rw [hr] at ih ⊢
      simp [unsplitNl, ih]
    · simp only [if_neg h]
      rcases hr : splitNl cs with _ | ⟨h2, t2⟩
      · exact absurd hr (splitNl_ne_nil cs)
      · rw [hr] at ih
        cases t2 with
        | nil =>
          simp only [unsplitNl] at ih ⊢
          rw [ih]
        | cons x xs =>
          simp only [unsplitNl] at ih ⊢
          rw [← ih]
          simp

theorem not_mem_splitNl (cs : List Char) (p : List Char) (hp : p ∈ splitNl cs) :
    '\n' ∉ p := by
  induction cs generalizing p with
  | nil =>
    simp only [splitNl, List.mem_singleton] at hp
    subst hp
    simp
  | cons c cs ih =>
    rw [splitNl] at hp
    by_cases h : c = '\n'
    · rw [if_pos h] at hp
      rcases List.mem_cons.mp hp with rfl | hp
      · simp
      · exact ih p hp
    · rw [if_neg h] at hp
      rcases hr : splitNl cs with _ | ⟨h2, t2⟩
      · exact absurd hr (splitNl_ne_nil cs)
      · rw [hr] at hp
        rcases List.mem_cons.mp hp with rfl | hp
        · intro hc
          rcases List.mem_cons.mp hc with hc | hc
          · exact h hc.symm
          · exact ih h2 (hr ▸ List.mem_cons_self _ _) hc
        · exact ih p (hr ▸ List.mem_cons_of_mem _ hp)

theorem splitNl_of_not_mem (cs : List Char) (h : '\n' ∉ cs) : splitNl cs = [cs] := by
  induction cs with
  | nil => rfl
  | cons c cs ih =>
    have hc : ¬ c = '\n' := fun hc => h (hc ▸ List.mem_cons_self _ _)
    rw [splitNl, if_neg hc, ih (fun hm => h (List.mem_cons_of_mem _ hm))]

theorem splitNl_eq_single_nil (cs : List Char) (h : splitNl cs = [[]]) : cs = [] := by
  have := unsplitNl_splitNl cs
  rw [h] at this
  simpa [unsplitNl] using this.symm

theorem getLast?_splitNl (cs : List Char) (hne : cs ≠ []) :
    ((splitNl cs).getLast? = some [] ↔ cs.getLast? = some '\n') := by
  induction cs with
  | nil => exact absurd rfl hne
  | cons c cs ih =>
    cases cs with
    | nil =>
      by_cases h : c = '\n'
      · subst h
        simp [splitNl]
      · simp [splitNl, h]
    | cons x xs =>
      have hcs : (x :: xs : List Char) ≠ [] := by simp
      rw [splitNl]
      by_cases h : c = '\n'
      · rw [if_pos h]
        obtain ⟨h2, t2, hr⟩ : ∃ h2 t2, splitNl (x :: xs) = h2 :: t2 := by
          rcases hq : splitNl (x :: xs) with _ | ⟨a, b⟩
          · exact absurd hq (splitNl_ne_nil _)
          · exact ⟨a, b, rfl⟩
        rw [hr]
        rw [hr] at ih
        simpa using ih hcs
      · rw [if_neg h]
        rcases hr : splitNl (x :: xs) with _ | ⟨h2, t2⟩
        · exact absurd hr (splitNl_ne_nil _)
        · rw [hr] at ih
          cases t2 with
          | nil =>
            have hh2 : ¬ (h2 = []) := by
              intro h0
              subst h0
              exact hcs (splitNl_eq_single_nil _ hr)
            simp only [List.getLast?_singleton, Option.some_inj] at ih ⊢
            constructor
            · intro hfalse
              exact absurd hfalse (by simp)
            · intro hlast
              exact absurd ((ih hcs).mpr (by simpa using hlast)) hh2
          | cons y ys =>
            have lhs1 : ((c :: h2) :: y :: ys).getLast? = (y :: ys).getLast? := rfl
            have lhs2 : (h2 :: y :: ys).getLast? = (y :: ys).getLast? := rfl
            rw [lhs1, ← lhs2]
            have rhs1 : (c :: x :: xs).getLast? = (x :: xs).getLast? := rfl
            rw [rhs1]
            exact ih hcs

theorem mem_of_mem_dropLast {α : Type} (l : List α) (a : α) (h : a ∈ l.dropLast) :
    a ∈ l := by
  induction l with
  | nil => simp at h
  | cons x xs ih =>
    cases xs with
    | nil => simp [List.dropLast] at h
    | cons y ys =>
      rcases List.mem_cons.mp h with rfl | h
      · exact List.mem_cons_self _ _
      · exact List.mem_cons_of_mem _ (ih h)

theorem join_foldl_data (L : List String) :
    ∀ acc : String, (L.foldl (fun r s => r ++ s) acc).data =
      acc.data ++ (L.map String.data).flatten := by
  induction L with
  | nil => intro acc; simp
  | cons s rest ih =>
    intro acc
    rw [List.foldl_cons, ih]
    simp [List.append_assoc]

theorem join_data (L : List String) :
    (String.join L).data = (L.map String.data).flatten := by
  simpa [String.join] using join_foldl_data L ""

theorem getLast?_ne_none {α : Type} (l : List α) (h : l ≠ []) : l.getLast? ≠ none := by
  induction l with
  | nil => exact absurd rfl h
  | cons x xs ih =>
    cases xs with
    | nil => simp
    | cons y ys =>
      rw [show ((x :: y :: ys).getLast? : Option α) = (y :: ys).getLast? from rfl]
      exact ih (by simp)

theorem mem_tokenizeLines (t : String) (tok : String) (htok : tok ∈ tokenizeLines t) :
    (∃ p, p ∈ splitNl t.data ∧ tok = String.mk (p ++ ['\n'])) ∨ '\n' ∉ tok.data := by
  simp only [tokenizeLines] at htok
  split at htok
  · obtain ⟨p, hp, rfl⟩ := List.mem_map.mp htok
    exact Or.inl ⟨p, mem_of_mem_dropLast _ _ hp, rfl⟩
  case _ lastPart hne heq =>
    rcases List.mem_append.mp htok with h | h
    · obtain ⟨p, hp, rfl⟩ := List.mem_map.mp h
      exact Or.inl ⟨p, mem_of_mem_dropLast _ _ hp, rfl⟩
    · rcases List.mem_singleton.mp h with rfl
      exact Or.inr (not_mem_splitNl t.data lastPart (List.mem_of_mem_getLast? heq))
  · obtain ⟨p, hp, rfl⟩ := List.mem_map.mp htok
    exact Or.inl ⟨p, mem_of_mem_dropLast _ _ hp, rfl⟩

theorem splitValue_line_with_newline (p : List Char) (hp : '\n' ∉ p) :
    splitValue (String.mk (p ++ ['\n'])) = [String.mk (p ++ ['\n'])] := by
  have hlast : (String.mk (p ++ ['\n'])).data.getLast? = some '\n' := by
    exact List.getLast?_concat p
  have hends : endsWithNl (String.mk (p ++ ['\n'])) = true := by
    rw [endsWithNl]
    exact decide_eq_true hlast
  rw [splitValue, if_pos hends]
  have hdrop : dropLastChar (String.mk (p ++ ['\n'])) = String.mk p := by
    rw [dropLastChar]
    congr 1
    exact List.dropLast_concat
  rw [hdrop, splitNlStr]
  rw [show (String.mk p).data = p from rfl, splitNl_of_not_mem p hp]
  apply congrArg (· :: [])
  apply String.ext
  rfl

theorem splitValue_line_no_newline (tok : String) (h : '\n' ∉ tok.data) :
    splitValue tok = [tok ++ "\n"] := by
  have hends : endsWithNl tok = false := by
    rw [endsWithNl]
    apply decide_eq_false
    intro hl
    exact h (List.mem_of_mem_getLast? hl)
  rw [splitValue, if_neg (by simp [hends]), splitNlStr, splitNl_of_not_mem tok.data h]
  rfl

theorem splitValue_token (t : String) :
    ∀ tok ∈ tokenizeLines t, splitValue tok = [normalizeNl tok] := by
  intro tok htok
  rcases mem_tokenizeLines t tok htok with ⟨p, hp, rfl⟩ | hno
  · have hnp := not_mem_splitNl t.data p hp
    rw [splitValue_line_with_newline p hnp, normalizeNl,
        if_pos (by rw [endsWithNl]; exact decide_eq_true (List.getLast?_concat p))]
  · rw [splitValue_line_no_newline tok hno, normalizeNl, if_neg]
    rw [endsWithNl]
    simp only [decide_eq_true_eq]
    intro hl
    exact hno (List.mem_of_mem_getLast? hl)

theorem tokenizeLines_endsWith (t : String) (ht : endsWithNl t = true) :
    ∀ tok ∈ tokenizeLines t, endsWithNl tok = true := by
  intro tok htok
  have hprop : t.data.getLast? = some '\n' := of_decide_eq_true ht
  have hne : t.data ≠ [] := by
    intro h0
    rw [h0] at hprop
    simp at hprop
  have hlast : (splitNl t.data).getLast? = some [] :=
    (getLast?_splitNl t.data hne).mpr hprop
  simp only [tokenizeLines, hlast] at htok
  obtain ⟨p, hp, rfl⟩ := List.mem_map.mp htok
  rw [endsWithNl]
  apply decide_eq_true
  exact List.getLast?_concat p

theorem flatten_dropLast_concat (parts : List (List Char)) (lastPart : List Char)
    (h : parts.getLast? = some lastPart) :
    (parts.dropLast.map (fun p => p ++ ['\n'])).flatten ++ lastPart = unsplitNl parts := by
  induction parts with
  | nil => simp at h
  | cons p ps ih =>
    cases ps with
    | nil =>
      simp only [List.getLast?_singleton, Option.some_inj] at h
      subst h
      simp [unsplitNl]
    | cons q qs =>
      have h' : (q :: qs).getLast? = some lastPart := by
        rw [← show (p :: q :: qs).getLast? = (q :: qs).getLast? from rfl]
        exact h
      rw [show (p :: q :: qs).dropLast = p :: (q :: qs).dropLast from rfl]
      rw [List.map_cons, List.flatten_cons, List.append_assoc, ih h']
      simp [unsplitNl]

theorem join_tokenizeLines (t : String) : String.join (tokenizeLines t) = t := by
  apply String.ext
  rw [join_data]
  simp only [tokenizeLines]
  split
  case _ heq =>
    rw [List.map_map]
    have : (String.data ∘ fun p => String.mk (p ++ ['\n'])) = fun p => p ++ ['\n'] := rfl
    rw [this]
    have h2 := flatten_dropLast_concat (splitNl t.data) [] heq
    rw [List.append_nil] at h2
    rw [h2, unsplitNl_splitNl]
  case _ lastPart hne heq =>
    rw [List.map_append, List.map_map]
    have : (String.data ∘ fun p => String.mk (p ++ ['\n'])) = fun p => p ++ ['\n'] := rfl
    rw [this, List.flatten_append]
    have h3 : (List.map String.data [String.mk lastPart]).flatten = lastPart := by simp
    rw [h3, flatten_dropLast_concat (splitNl t.data) lastPart heq, unsplitNl_splitNl]
  case _ heq =>
    exact absurd heq (getLast?_ne_none _ (splitNl_ne_nil t.data))

theorem parseStep_plain_append (acc : List MergeBlock) (vs : List String) (c : DiffChange)
    (hr : c.removed = false) (hconf : c.conflicted = false) :
    parseStep (acc ++ [{ status := .OK, current := vs }]) c =
      acc ++ [{ status := .OK, current := vs ++ [c.value] }] := by
  have hlast : lastIsConflict (acc ++ [{ status := .OK, current := vs }]) = false := by
    rw [lastIsConflict, List.getLast?_concat]
    simp
  have hupd : updLast (acc ++ [{ status := .OK, current := vs }])
      (fun last => { last with current := last.current ++ [c.value] }) =
      acc ++ [{ status := .OK, current := vs ++ [c.value] }] := by
    rw [updLast, List.getLast?_concat]
    rw [List.dropLast_concat]
  have hcond : ((acc ++ [({ status := .OK, current := vs } : MergeBlock)]).isEmpty ||
      lastIsConflict (acc ++ [{ status := .OK, current := vs }])) = false := by
    rw [hlast, Bool.or_false]
    cases acc <;> rfl
  rw [parseStep, if_neg (by simp [hr]), if_neg (by simp [hconf]), hcond]
  simpa using hupd

theorem parse_fold_plain (changes : List DiffChange)
    (h : ∀ c ∈ changes, c.removed = false ∧ c.conflicted = false) :
    ∀ (acc : List MergeBlock) (vs : List String),
      changes.foldl parseStep (acc ++ [{ status := .OK, current := vs }]) =
        acc ++ [{ status := .OK, current := vs ++ changes.map DiffChange.value }] := by
  induction changes with
  | nil => intro acc vs; simp
  | cons c rest ih =>
    intro acc vs
    obtain ⟨hr, hconf⟩ := h c (List.mem_cons_self _ _)
    rw [List.foldl_cons, parseStep_plain_append acc vs c hr hconf,
        ih (fun d hd => h d (List.mem_cons_of_mem _ hd)) acc (vs ++ [c.value])]
    simp

theorem parse_plain (changes : List DiffChange) (hne : changes ≠ [])
    (h : ∀ c ∈ changes, c.removed = false ∧ c.conflicted = false) :
    parseDiffToMergeBlocks changes =
      [{ status := .OK, current := changes.map DiffChange.value }] := by
  cases changes with
  | nil => exact absurd rfl hne
  | cons c rest =>
    rw [parseDiffToMergeBlocks, List.foldl_cons]
    obtain ⟨hr, hconf⟩ := h c (List.mem_cons_self _ _)
    have h1 : parseStep [] c = [{ status := .OK, current := [c.value] }] := by
      simp [parseStep, hr, hconf, lastIsConflict, updLast]
    rw [h1]
    have h2 := parse_fold_plain rest (fun d hd => h d (List.mem_cons_of_mem _ hd)) [] [c.value]
    simpa using h2

theorem toText_single_ok (vs : List String) :
    parseMergeBlocksToText [{ status := .OK, current := vs }] = String.join vs := by
  simp [parseMergeBlocksToText, renderBlock]

theorem assign_map_value (raw : List RawChange) :
    ∀ n, (assignNumbersFrom n raw).map DiffChange.value = raw.map RawChange.value := by
  induction raw with
  | nil => intro n; rfl
  | cons c rest ih =>
    intro n
    by_cases h : c.added <;> simp [assignNumbersFrom, h, ih]

theorem expand_map_common (toks : List String)
    (h : ∀ tok ∈ toks, splitValue tok = [normalizeNl tok]) :
    expandChanges (toks.map (fun v => ({ value := v } : RawChange))) =
      toks.map (fun v => ({ value := normalizeNl v } : RawChange)) := by
  induction toks with
  | nil => rfl
  | cons tok rest ih =>
    rw [List.map_cons, expandChanges, h tok (List.mem_cons_self _ _),
        ih (fun d hd => h d (List.mem_cons_of_mem _ hd))]
    rfl

/-! ### Claim C1 -/

/-- C1 counterexample: the differ introduces a final newline on a text
that lacks one, so the round trip is not the identity there. -/
theorem c1_counterexample :
    parseMergeBlocksToText (parseDiffToMergeBlocks (diff "abc" none)) = "abc\n"
    ∧ parseMergeBlocksToText (parseDiffToMergeBlocks (diff "abc" none)) ≠ "abc" := by
  constructor <;> decide

/-- C1 (amended): serialising the self-diff back to text is the identity
for the empty text and for every text that ends with a newline; when the
input lacks a final newline the round trip appends one (`splitChanges`
gives every split line a terminating newline unconditionally). -/
theorem c1_roundtrip_newline_terminated :
    ∀ t : String, t = "" ∨ endsWithNl t = true →
      parseMergeBlocksToText (parseDiffToMergeBlocks (diff t none)) = t := by
  intro t ht
  rcases ht with rfl | ht
  · rfl
  · have hdiff : diff t none = assignNumbersFrom 0 (splitChanges (diffLines t t)) := rfl
    rw [hdiff, diffLines_self, splitChanges_eq_expand,
        expand_map_common _ (splitValue_token t)]
    have hnorm : (tokenizeLines t).map (fun v => ({ value := normalizeNl v } : RawChange)) =
        (tokenizeLines t).map (fun v => ({ value := v } : RawChange)) := by
      apply List.map_eq_map_iff.mpr
      intro tok htok
      rw [normalizeNl, if_pos (tokenizeLines_endsWith t ht tok htok)]
    rw [hnorm]
    cases htoks : tokenizeLines t with
    | nil =>
      have ht0 : t = "" := by
        rw [← join_tokenizeLines t, htoks]
        rfl
      rw [ht0]
      rfl
    | cons tok rest =>
      have hplain : ∀ c ∈ assignNumbersFrom 0
          ((tok :: rest).map (fun v => ({ value := v } : RawChange))),
          c.removed = false ∧ c.conflicted = false := by
        intro c hc
        obtain ⟨c0, hc0, -, hcr, hcc⟩ := mem_assignNumbersFrom _ 0 c hc
        obtain ⟨v, -, rfl⟩ := List.mem_map.mp hc0
        exact ⟨hcr, hcc⟩
      have hne : assignNumbersFrom 0
          ((tok :: rest).map (fun v => ({ value := v } : RawChange))) ≠ [] := by
        rw [List.map_cons, assignNumbersFrom]
        simp
      rw [parse_plain _ hne hplain, toText_single_ok, assign_map_value]
      have hx : (RawChange.value ∘ fun v => ({ value := v } : RawChange)) = id := rfl
      rw [List.map_map, hx, List.map_id, ← htoks, join_tokenizeLines]

/-- C1 witness: the amended round trip at a newline-terminated text. -/
theorem c1_witness :
    ("a\nb\n" = "" ∨ endsWithNl "a\nb\n" = true)
    ∧ parseMergeBlocksToText (parseDiffToMergeBlocks (diff "a\nb\n" none)) = "a\nb\n" :=
  ⟨Or.inr (by decide),
    c1_roundtrip_newline_terminated "a\nb\n" (Or.inr (by decide))⟩

/-! ### Merge computation lemmas (claim C3) -/

theorem addOverlayFirstLoop_no_removed (o : List DiffChange) :
    ∀ st : List DiffChange × PatchTable, (∀ c ∈ o, c.removed = false) →
      addOverlayFirstLoop st o =
        (st.1, (o.filter (·.added)).foldl (fun pt c => ptAddChange pt c.lineNumber c) st.2) := by
  induction o with
  | nil => intro st h; rfl
  | cons c rest ih =>
    intro st h
    have hr : c.removed = false := (h c (List.mem_cons_self _ _))
    by_cases hadd : c.added
    · rw [addOverlayFirstLoop, List.foldl_cons]
      rw [show (if c.added then (st.1, ptAddChange st.2 c.lineNumber c)
          else if c.removed then (setRemovedAt st.1 c.lineNumber, st.2) else st) =
        (st.1, ptAddChange st.2 c.lineNumber c) from by rw [if_pos hadd]]
      rw [List.filter_cons, if_pos (by simp [hadd]), List.foldl_cons]
      exact ih (st.1, ptAddChange st.2 c.lineNumber c)
        (fun d hd => h d (List.mem_cons_of_mem _ hd))
    · rw [addOverlayFirstLoop, List.foldl_cons]
      rw [show (if c.added then (st.1, ptAddChange st.2 c.lineNumber c)
          else if c.removed then (setRemovedAt st.1 c.lineNumber, st.2) else st) = st from by
        rw [if_neg hadd, if_neg (by simp [hr])]]
      rw [List.filter_cons, if_neg (by simp [hadd])]
      exact ih st (fun d hd => h d (List.mem_cons_of_mem _ hd))

theorem foldl_ptAddChange_same (A : List DiffChange) (a : Int) :
    ∀ (cs : List DiffChange) (m : Nat), (∀ c ∈ A, c.lineNumber = a) →
      A.foldl (fun pt c => ptAddChange pt c.lineNumber c)
          [(a, { changes := cs, modifyLength := m })] =
        [(a, { changes := cs ++ A, modifyLength := m })] := by
  induction A with
  | nil => intro cs m h; simp
  | cons c rest ih =>
    intro cs m h
    have ha : c.lineNumber = a := h c (List.mem_cons_self _ _)
    rw [List.foldl_cons]
    rw [show ptAddChange [(a, { changes := cs, modifyLength := m })] c.lineNumber c =
        [(a, { changes := cs ++ [c], modifyLength := m })] from by
      rw [ptAddChange, if_pos ha.symm]]
    rw [ih (cs ++ [c]) m (fun d hd => h d (List.mem_cons_of_mem _ hd))]
    simp

theorem foldl_ptAddChange_empty (A : List DiffChange) (a : Int) (hne : A ≠ [])
    (h : ∀ c ∈ A, c.lineNumber = a) :
    A.foldl (fun pt c => ptAddChange pt c.lineNumber c) [] =
      [(a, { changes := A, modifyLength := 0 })] := by
  cases A with
  | nil => exact absurd rfl hne
  | cons c rest =>
    have ha : c.lineNumber = a := h c (List.mem_cons_self _ _)
    rw [List.foldl_cons]
    rw [show ptAddChange [] c.lineNumber c =
        [(a, { changes := [c], modifyLength := 0 })] from by rw [ptAddChange, ha]]
    rw [foldl_ptAddChange_same rest a [c] 0 (fun d hd => h d (List.mem_cons_of_mem _ hd))]
    simp

theorem jsUniq_foldl_const {α : Type} [DecidableEq α] (l : List α) (a : α)
    (h : ∀ x ∈ l, x = a) :
    l.foldl (fun acc x => if acc.contains x then acc else acc ++ [x]) [a] = [a] := by
  induction l with
  | nil => rfl
  | cons x rest ih =>
    have hx : x = a := h x (List.mem_cons_self _ _)
    subst hx
    rw [List.foldl_cons, if_pos (by simp)]
    exact ih (fun y hy => h y (List.mem_cons_of_mem _ hy))

theorem jsUniq_const {α : Type} [DecidableEq α] (l : List α) (a : α) (hne : l ≠ [])
    (h : ∀ x ∈ l, x = a) : jsUniq l = [a] := by
  cases l with
  | nil => exact absurd rfl hne
  | cons x rest =>
    have hx : x = a := h x (List.mem_cons_self _ _)
    subst hx
    rw [jsUniq, List.foldl_cons]
    rw [show (if ([] : List α).contains x then ([] : List α) else [] ++ [x]) = [x] from rfl]
    exact jsUniq_foldl_const rest x (fun y hy => h y (List.mem_cons_of_mem _ hy))

theorem addOverlay_same_anchor_empty (b : List DiffChange) (o : List DiffChange) (a : Int)
    (hnr : ∀ c ∈ o, c.removed = false)
    (ha : ∀ c ∈ o.filter (·.added), c.lineNumber = a)
    (hne : o.filter (·.added) ≠ []) :
    addOverlay (b, []) o =
      (b, [(a, { changes := o.filter (·.added), modifyLength := 1 })]) := by
  simp only [addOverlay, addOverlayFirstLoop_no_removed o _ hnr]
  rw [foldl_ptAddChange_empty _ a hne ha]
  have hu : jsUniq ((o.filter (·.added)).map (·.lineNumber)) = [a] :=
    jsUniq_const _ a (by simpa using hne) (by
      intro x hx
      obtain ⟨c, hc, rfl⟩ := List.mem_map.mp hx
      exact ha c hc)
  rw [hu, List.foldl_cons, List.foldl_nil]
  rw [show ptBump [(a, { changes := o.filter (·.added), modifyLength := 0 })] a =
      [(a, { changes := o.filter (·.added), modifyLength := 1 })] from by
    rw [ptBump, if_pos rfl]]

theorem addOverlay_same_anchor_again (b : List DiffChange) (o : List DiffChange) (a : Int)
    (A0 : List DiffChange) (m : Nat)
    (hnr : ∀ c ∈ o, c.removed = false)
    (ha : ∀ c ∈ o.filter (·.added), c.lineNumber = a)
    (hne : o.filter (·.added) ≠ []) :
    addOverlay (b, [(a, { changes := A0, modifyLength := m })]) o =
      (b, [(a, { changes := A0 ++ o.filter (·.added), modifyLength := m + 1 })]) := by
  simp only [addOverlay, addOverlayFirstLoop_no_removed o _ hnr]
  rw [foldl_ptAddChange_same _ a A0 m ha]
  have hu : jsUniq ((o.filter (·.added)).map (·.lineNumber)) = [a] :=
    jsUniq_const _ a (by simpa using hne) (by
      intro x hx
      obtain ⟨c, hc, rfl⟩ := List.mem_map.mp hx
      exact ha c hc)
  rw [hu, List.foldl_cons, List.foldl_nil]
  rw [show ptBump [(a, { changes := A0 ++ o.filter (·.added), modifyLength := m })] a =
      [(a, { changes := A0 ++ o.filter (·.added), modifyLength := m + 1 })] from by
    rw [ptBump, if_pos rfl]]

theorem iterKeys_singleton (a : Int) (item : PatchItem) (h1 : -1 ≤ a) (h2 : a < 4294967295) :
    iterKeys [(a, item)] = [a] := by
  rcases (by omega : a = -1 ∨ 0 ≤ a) with rfl | ha
  · rfl
  · have hk : isArrayIndexKey a = true := by
      simp only [isArrayIndexKey, Bool.and_eq_true, decide_eq_true_eq]
      omega
    simp [iterKeys, hk, sortInts, insertSorted]

/-- The conflicted-current mark applied by `markConflicts`. -/
theorem markConflicts_singleton_two (a : Int) (C : List DiffChange) :
    markConflicts [(a, { changes := C, modifyLength := 2 })] =
      [(a, { changes := C.map markCurrent, modifyLength := 2 })] := by
  simp [markConflicts]

theorem merge_two_overlays_same_anchor (b o1 o2 : List DiffChange) (a : Int)
    (hnr1 : ∀ c ∈ o1, c.removed = false) (hnr2 : ∀ c ∈ o2, c.removed = false)
    (ha1 : ∀ c ∈ o1.filter (·.added), c.lineNumber = a)
    (ha2 : ∀ c ∈ o2.filter (·.added), c.lineNumber = a)
    (hne1 : o1.filter (·.added) ≠ []) (hne2 : o2.filter (·.added) ≠ [])
    (hlo : -1 ≤ a) (hhi : a < 4294967295) :
    merge (some b) (some [o1, o2]) =
      b.take (a + 1).toNat
        ++ ((o1.filter (·.added) ++ o2.filter (·.added)).map markCurrent)
        ++ b.drop (a + 1).toNat := by
  have hfold : [o1, o2].foldl addOverlay (b, ([] : PatchTable)) =
      (b, [(a, { changes := o1.filter (·.added) ++ o2.filter (·.added),
                 modifyLength := 2 })]) := by
    rw [List.foldl_cons, addOverlay_same_anchor_empty b o1 a hnr1 ha1 hne1,
        List.foldl_cons, addOverlay_same_anchor_again b o2 a _ 1 hnr2 ha2 hne2,
        List.foldl_nil]
  have hpt : ptFind
      [(a, ({ changes := (o1.filter (·.added) ++ o2.filter (·.added)).map markCurrent,
              modifyLength := 2 } : PatchItem))] a =
      some { changes := (o1.filter (·.added) ++ o2.filter (·.added)).map markCurrent,
             modifyLength := 2 } := by
    rw [ptFind, if_pos rfl]
  simp only [merge, List.length_cons, List.length_nil]
  rw [if_neg (by omega), hfold]
  dsimp only
  rw [markConflicts_singleton_two, iterKeys_singleton a _ hlo hhi]
  dsimp only [List.map_cons, List.map_nil]
  rw [hpt]
  rw [show buildBlocks b [-1, a] =
      [jsSlice b 0 (some (a + 1)), jsSlice b (a + 1) none] from by
    rw [buildBlocks, buildBlocks]
    norm_num]
  rw [jsSlice_zero_some b _ (by omega), jsSlice_some_none b _ (by omega)]
  simp [assemble]

theorem parseStep_conflict_new (acc : List MergeBlock) (c : DiffChange)
    (hr : c.removed = false) (hcf : c.conflicted = true) (hg : c.conflictGroup = .current)
    (hlast : lastIsConflict acc = false) :
    parseStep acc c = acc ++ [{ status := .CONFLICT, current := [c.value] }] := by
  rw [parseStep, if_neg (by simp [hr]), if_pos (by simp [hcf]), hlast]
  rw [show (if !false then acc ++ [({ status := .CONFLICT } : MergeBlock)] else acc) =
      acc ++ [({ status := .CONFLICT } : MergeBlock)] from rfl]
  rw [updLast, List.getLast?_concat, List.dropLast_concat, hg]
  rfl

theorem parseStep_conflict_append (acc : List MergeBlock) (cur fmr : List String)
    (ign : Bool) (c : DiffChange)
    (hr : c.removed = false) (hcf : c.conflicted = true) (hg : c.conflictGroup = .current) :
    parseStep (acc ++ [{ status := .CONFLICT, current := cur, former := fmr, ignored := ign }]) c =
      acc ++ [{ status := .CONFLICT, current := cur ++ [c.value], former := fmr,
                ignored := ign }] := by
  have hlast : lastIsConflict
      (acc ++ [{ status := .CONFLICT, current := cur, former := fmr, ignored := ign }]) = true := by
    rw [lastIsConflict, List.getLast?_concat]
    simp
  rw [parseStep, if_neg (by simp [hr]), if_pos (by simp [hcf]), hlast]
  rw [show (if !true then
        (acc ++ [({ status := .CONFLICT, current := cur, former := fmr, ignored := ign } : MergeBlock)])
          ++ [({ status := .CONFLICT } : MergeBlock)]
      else acc ++ [({ status := .CONFLICT, current := cur, former := fmr, ignored := ign } : MergeBlock)]) =
      acc ++ [({ status := .CONFLICT, current := cur, former := fmr, ignored := ign } : MergeBlock)] from rfl]
  rw [updLast, List.getLast?_concat, List.dropLast_concat, hg]
  rfl

theorem parse_fold_conflict (C : List DiffChange)
    (hC : ∀ c ∈ C, c.removed = false ∧ c.conflicted = true ∧ c.conflictGroup = .current) :
    ∀ (acc : List MergeBlock) (cur : List String),
      C.foldl parseStep (acc ++ [{ status := .CONFLICT, current := cur }]) =
        acc ++ [{ status := .CONFLICT, current := cur ++ C.map DiffChange.value }] := by
  induction C with
  | nil => intro acc cur; simp
  | cons c rest ih =>
    intro acc cur
    obtain ⟨hr, hcf, hg⟩ := hC c (List.mem_cons_self _ _)
    rw [List.foldl_cons, parseStep_conflict_append acc cur [] false c hr hcf hg,
        ih (fun d hd => hC d (List.mem_cons_of_mem _ hd)) acc (cur ++ [c.value])]
    simp

theorem parseStep_plain_conflict_last (acc : List MergeBlock) (cur fmr : List String)
    (ign : Bool) (c : DiffChange) (hr : c.removed = false) (hcf : c.conflicted = false) :
    parseStep (acc ++ [{ status := .CONFLICT, current := cur, former := fmr, ignored := ign }]) c =
      (acc ++ [{ status := .CONFLICT, current := cur, former := fmr, ignored := ign }])
        ++ [{ status := .OK, current := [c.value] }] := by
  have hlast : lastIsConflict
      (acc ++ [{ status := .CONFLICT, current := cur, former := fmr, ignored := ign }]) = true := by
    rw [lastIsConflict, List.getLast?_concat]
    simp
  rw [parseStep, if_neg (by simp [hr]), if_neg (by simp [hcf]), hlast]
  rw [show ((acc ++ [({ status := .CONFLICT, current := cur, former := fmr, ignored := ign } : MergeBlock)]).isEmpty
      || true) = true from by simp]
  rw [show (if (true : Bool) then
        (acc ++ [({ status := .CONFLICT, current := cur, former := fmr, ignored := ign } : MergeBlock)])
          ++ [({ status := .OK } : MergeBlock)]
      else acc ++ [({ status := .CONFLICT, current := cur, former := fmr, ignored := ign } : MergeBlock)]) =
      (acc ++ [({ status := .CONFLICT, current := cur, former := fmr, ignored := ign } : MergeBlock)])
        ++ [({ status := .OK } : MergeBlock)] from rfl]
  rw [updLast, List.getLast?_concat, List.dropLast_concat]
  rfl

theorem parse_conflict_sandwich (P C S : List DiffChange)
    (hP : ∀ c ∈ P, c.removed = false ∧ c.conflicted = false)
    (hS : ∀ c ∈ S, c.removed = false ∧ c.conflicted = false)
    (hC : ∀ c ∈ C, c.removed = false ∧ c.conflicted = true ∧ c.conflictGroup = .current)
    (hCne : C ≠ []) :
    parseDiffToMergeBlocks (P ++ C ++ S) =
      (if P = [] then [] else [{ status := .OK, current := P.map DiffChange.value }])
        ++ [{ status := .CONFLICT, current := C.map DiffChange.value }]
        ++ (if S = [] then [] else [{ status := .OK, current := S.map DiffChange.value }]) := by
  rw [parseDiffToMergeBlocks, List.foldl_append, List.foldl_append]
  have hst0 : P.foldl parseStep [] =
      (if P = [] then [] else [{ status := .OK, current := P.map DiffChange.value }]) := by
    cases hp : P with
    | nil => simp
    | cons p ps =>
      rw [if_neg (by simp)]
      rw [← hp, show P.foldl parseStep [] = parseDiffToMergeBlocks P from rfl]
      exact parse_plain P (by simp [hp]) (hp ▸ hP)
  rw [hst0]
  have hlast0 : lastIsConflict
      (if P = [] then [] else [{ status := .OK, current := P.map DiffChange.value }]) = false := by
    split
    · rfl
    · rfl
  have hst1 : C.foldl parseStep
      (if P = [] then [] else [{ status := .OK, current := P.map DiffChange.value }]) =
      (if P = [] then [] else [{ status := .OK, current := P.map DiffChange.value }])
        ++ [{ status := .CONFLICT, current := C.map DiffChange.value }] := by
    cases hc : C with
    | nil => exact absurd hc hCne
    | cons c cs =>
      obtain ⟨hr, hcf, hg⟩ := hC c (hc ▸ List.mem_cons_self _ _)
      rw [List.foldl_cons, parseStep_conflict_new _ c hr hcf hg hlast0]
      rw [parse_fold_conflict cs (fun d hd => hC d (hc ▸ List.mem_cons_of_mem _ hd)) _ [c.value]]
      simp
  rw [hst1]
  cases hs : S with
  | nil => simp
  | cons s ss =>
    obtain ⟨hr, hcf⟩ := hS s (hs ▸ List.mem_cons_self _ _)
    rw [List.foldl_cons, parseStep_plain_conflict_last _ _ [] false s hr hcf]
    rw [parse_fold_plain ss (fun d hd => hS d (hs ▸ List.mem_cons_of_mem _ hd)) _ [s.value]]
    rw [if_neg (List.cons_ne_nil s ss)]
    simp

/-! ### Claim C3 -/

/-- C3: for a baseline of plain (common) changes and two overlays whose
added changes all anchor at the same baseline line `a` (each overlay
inserting at least one line, neither removing anything), converting the
merge result to blocks yields exactly one `CONFLICT` block, placed after
the baseline lines up to the anchor; it carries the inserted lines of
both overlays (first overlay's lines first, all in the `current` group),
and every other block of the file is `OK`. -/
theorem c3_two_overlays_same_anchor :
    ∀ (b o1 o2 : List DiffChange) (a : Int),
      (∀ c ∈ b, c.added = false ∧ c.removed = false ∧ c.conflicted = false) →
      (∀ c ∈ o1, c.removed = false) → (∀ c ∈ o2, c.removed = false) →
      (∀ c ∈ o1.filter (·.added), c.lineNumber = a) →
      (∀ c ∈ o2.filter (·.added), c.lineNumber = a) →
      o1.filter (·.added) ≠ [] → o2.filter (·.added) ≠ [] →
      -1 ≤ a → a < 4294967295 →
      parseDiffToMergeBlocks (merge (some b) (some [o1, o2])) =
          (if b.take (a + 1).toNat = [] then []
           else [{ status := .OK, current := (b.take (a + 1).toNat).map DiffChange.value }])
            ++ [{ status := .CONFLICT,
                  current := (o1.filter (·.added) ++ o2.filter (·.added)).map DiffChange.value }]
            ++ (if b.drop (a + 1).toNat = [] then []
                else [{ status := .OK, current := (b.drop (a + 1).toNat).map DiffChange.value }])
        ∧ (parseDiffToMergeBlocks (merge (some b) (some [o1, o2]))).countP
            (fun blk => decide (blk.status = BlockStatus.CONFLICT)) = 1 := by
  intro b o1 o2 a hb hnr1 hnr2 ha1 ha2 hne1 hne2 hlo hhi
  have hmerge := merge_two_overlays_same_anchor b o1 o2 a hnr1 hnr2 ha1 ha2 hne1 hne2 hlo hhi
  have hP : ∀ c ∈ b.take (a + 1).toNat, c.removed = false ∧ c.conflicted = false := by
    intro c hc
    have h := hb c (List.take_subset _ _ hc)
    exact ⟨h.2.1, h.2.2⟩
  have hSd : ∀ c ∈ b.drop (a + 1).toNat, c.removed = false ∧ c.conflicted = false := by
    intro c hc
    have h := hb c (List.drop_subset _ _ hc)
    exact ⟨h.2.1, h.2.2⟩
  have hC : ∀ c ∈ (o1.filter (·.added) ++ o2.filter (·.added)).map markCurrent,
      c.removed = false ∧ c.conflicted = true ∧ c.conflictGroup = .current := by
    intro c hc
    obtain ⟨d, hd, rfl⟩ := List.mem_map.mp hc
    refine ⟨?_, rfl, rfl⟩
    show d.removed = false
    rcases List.mem_append.mp hd with h | h
    · exact hnr1 d (List.mem_filter.mp h).1
    · exact hnr2 d (List.mem_filter.mp h).1
  have hCne : (o1.filter (·.added) ++ o2.filter (·.added)).map markCurrent ≠ [] := by
    intro h0
    rw [List.map_eq_nil_iff, List.append_eq_nil] at h0
    exact hne1 h0.1
  have hparse := parse_conflict_sandwich (b.take (a + 1).toNat)
    ((o1.filter (·.added) ++ o2.filter (·.added)).map markCurrent)
    (b.drop (a + 1).toNat) hP hSd hC hCne
  have hvals : (DiffChange.value ∘ markCurrent) = DiffChange.value := rfl
  constructor
  · rw [hmerge, hparse, List.map_map, hvals]
  · rw [hmerge, hparse]
    split <;> split <;>
      simp [List.countP_append, List.countP_cons]

/-- C3 witness: spec scenario 3 — two overlays each inserting one line
after baseline line 0 produce exactly one conflict block. -/
theorem c3_witness :
    ([{ value := "A\n", lineNumber := 0 },
      { added := true, value := "X\n", lineNumber := 0 },
      { value := "B\n", lineNumber := 1 }] : List DiffChange).filter (·.added) ≠ []
    ∧ (parseDiffToMergeBlocks (merge
          (some [{ value := "A\n", lineNumber := 0 }, { value := "B\n", lineNumber := 1 }])
          (some [[{ value := "A\n", lineNumber := 0 },
                  { added := true, value := "X\n", lineNumber := 0 },
                  { value := "B\n", lineNumber := 1 }],
                 [{ value := "A\n", lineNumber := 0 },
                  { added := true, value := "Y\n", lineNumber := 0 },
                  { value := "B\n", lineNumber := 1 }]]))).countP
        (fun blk => decide (blk.status = BlockStatus.CONFLICT)) = 1 :=
  ⟨by decide,
    (c3_two_overlays_same_anchor
      [{ value := "A\n", lineNumber := 0 }, { value := "B\n", lineNumber := 1 }]
      [{ value := "A\n", lineNumber := 0 },
       { added := true, value := "X\n", lineNumber := 0 },
       { value := "B\n", lineNumber := 1 }]
      [{ value := "A\n", lineNumber := 0 },
       { added := true, value := "Y\n", lineNumber := 0 },
       { value := "B\n", lineNumber := 1 }]
      0 (by decide) (by decide) (by decide) (by decide) (by decide) (by decide) (by decide)
      (by decide) (by decide)).2⟩

end Dollie
